import Mathlib

/-!
Verification of the crossword CSP solver in `src/crossword/generate.py`
(`CrosswordCreator`).  Words are modelled as lists of characters, Python
dicts as association lists, and Python sets as duplicate-free lists whose
order stands for the set's iteration order.  A Python expression that can
raise an exception is modelled with `Option`: `none` is a raised exception.
-/

namespace Crossword

/-- Modelled from the spec: a slot direction is one of ACROSS, DOWN
(`crossword.py` is not part of `src/`). -/
inductive Direction where
  | across : Direction
  | down : Direction
deriving DecidableEq

/-- Modelled from the spec: a Slot ("Variable") is identified by starting
row, starting column, direction and length; equal iff all four fields match
(`crossword.py` is not part of `src/`). -/
structure Slot where
  row : Nat
  col : Nat
  dir : Direction
  len : Nat
deriving DecidableEq

/-- A candidate word: a Python string as a list of characters. -/
abbrev Word := List Char

/-- Lookup in the overlap table (a Python dict keyed by ordered slot pairs). -/
def lookupOv : List ((Slot × Slot) × (Nat × Nat)) → Slot × Slot → Option (Nat × Nat)
  | [], _ => none
  | e :: rest, k => if e.1 = k then some e.2 else lookupOv rest k

/-- Modelled from the spec: the Puzzle Model (`crossword.py`, not part of
`src/`) supplies the set of slots, the vocabulary, and an overlap table
mapping ordered pairs of distinct slots to `none` (no shared cell) or a
pair of local character offsets.  List order stands for the Python set or
dict iteration order. -/
structure Puzzle where
  slots : List Slot
  words : List Word
  olist : List ((Slot × Slot) × (Nat × Nat))
deriving DecidableEq

/-- `crossword.overlaps[x, y]`. -/
def Puzzle.overlaps (p : Puzzle) (x y : Slot) : Option (Nat × Nat) :=
  lookupOv p.olist (x, y)

/-- Modelled from the spec: `crossword.neighbors(v)` returns the slots other
than `v` whose overlap entry with `v` is not `None`. -/
def neighbors (p : Puzzle) (v : Slot) : List Slot :=
  p.slots.filter (fun u => decide (u ≠ v) && (p.overlaps v u).isSome)

/-- Well-formedness of the overlap table, from the spec: the table is
symmetric (entry `(i, j)` for `(x, y)` matches entry `(j, i)` for `(y, x)`). -/
def symmOK (p : Puzzle) : Bool :=
  p.olist.all fun e => p.overlaps e.1.2 e.1.1 == some (e.2.2, e.2.1)

/-- Well-formedness of the overlap table, from the spec: overlap offsets are
character positions inside the two slots. -/
def boundsOK (p : Puzzle) : Bool :=
  p.olist.all fun e => decide (e.2.1 < e.1.1.len) && decide (e.2.2 < e.1.2.len)

/-- The domain store `self.domains`: a Python dict from slot to word set. -/
abbrev Doms := List (Slot × List Word)

/-- `self.domains[v]` (the slots in use are always keys, so no KeyError arises). -/
def lookupW : Doms → Slot → List Word
  | [], _ => []
  | e :: rest, v => if e.1 = v then e.2 else lookupW rest v

/-- Whether `v` is a key of the domain dict. -/
def containsD (d : Doms) (v : Slot) : Bool :=
  d.any fun e => e.1 == v

/-- `self.domains[x] = ws`: replace the value stored under an existing key. -/
def setD (d : Doms) (x : Slot) (ws : List Word) : Doms :=
  d.map fun e => if e.1 = x then (x, ws) else e

/-- `self.domains = {var: words.copy() for var in variables}` (constructor). -/
def initDoms (p : Puzzle) : Doms :=
  p.slots.map fun v => (v, p.words)

/-- A partial assignment: a Python dict from slot to word, in insertion order. -/
abbrev Assignment := List (Slot × Word)

/-- `assignment[v]` when present. -/
def lookupA : Assignment → Slot → Option Word
  | [], _ => none
  | e :: rest, v => if e.1 = v then some e.2 else lookupA rest v

/-- `v in assignment`. -/
def hasKey (a : Assignment) (v : Slot) : Bool :=
  (lookupA a v).isSome

/-- `assignment.pop(v)` (the state after removal; in every reachable call the
key is present, so no KeyError arises). -/
def eraseKey (a : Assignment) (v : Slot) : Assignment :=
  a.filter fun e => decide (e.1 ≠ v)

/-- `enforce_node_consistency`: drop from every slot's domain each word whose
length differs from the slot's length. -/
def enforce_node_consistency (d : Doms) : Doms :=
  d.map fun e => (e.1, e.2.filter (fun w => w.length == e.1.len))

/-- The inner loop of `revise`: whether some `wordY` in the list satisfies
`wordX[i] == wordY[j]` (with `break` on the first hit).  An out-of-range
index raises, modelled as `none`; with no candidate `wordY` no comparison is
evaluated, as in Python. -/
def anySupport (i j : Nat) (wx : Word) : List Word → Option Bool
  | [] => some false
  | wy :: rest => do
      let c ← wx.get? i
      let c2 ← wy.get? j
      if c = c2 then pure true else anySupport i j wx rest

/-- The `valid_words` set built by `revise`: the words of `xs` that have a
supporting partner in `ys`, in iteration order. -/
def filterSupported (i j : Nat) (ys : List Word) : List Word → Option (List Word)
  | [] => some []
  | wx :: rest => do
      let b ← anySupport i j wx ys
      let tail ← filterSupported i j ys rest
      pure (if b then wx :: tail else tail)

/-- `revise(x, y)`.  The Python code evaluates `overlap[0]` before testing
`if overlap:`, so a pair without overlap raises TypeError, modelled as
`none`. -/
def revise (p : Puzzle) (d : Doms) (x y : Slot) : Option (Doms × Bool) :=
  match p.overlaps x y with
  | none => none
  | some (i, j) => do
      let valid ← filterSupported i j (lookupW d y) (lookupW d x)
      if valid = lookupW d x then pure (d, false)
      else pure (setD d x valid, true)

/-- `arcs.add(a)`: the worklist is a Python set, modelled as a duplicate-free
list; pops take the head, new arcs append at the tail. -/
def addArc (arcs : List (Slot × Slot)) (a : Slot × Slot) : List (Slot × Slot) :=
  if a ∈ arcs then arcs else arcs ++ [a]

/-- The initial worklist of `ac3(arcs=None)`: every ordered pair
`(variable, neighbor)`. -/
def initialArcs (p : Puzzle) : List (Slot × Slot) :=
  p.slots.foldl (fun acc v => (neighbors p v).foldl (fun a2 n => addArc a2 (v, n)) acc) []

/-- One re-enqueueing step of `ac3`: after revising `x`, add `(x, z)` and
`(z, x)` for every neighbor `z` of `x`. -/
def requeue (p : Puzzle) (x : Slot) (arcs : List (Slot × Slot)) : List (Slot × Slot) :=
  (neighbors p x).foldl (fun acc z => addArc (addArc acc (x, z)) (z, x)) arcs

/-- The `while` loop of `ac3`, with fuel standing for the (finite) number of
iterations Python performs; `none` is a raised exception or exhausted fuel. -/
def ac3Aux (p : Puzzle) : Nat → List (Slot × Slot) → Doms → Option (Doms × Bool)
  | 0, _, _ => none
  | _ + 1, [], d => some (d, true)
  | fuel + 1, (x, y) :: rest, d =>
      match revise p d x y with
      | none => none
      | some (d2, changed) =>
          if changed then
            if (lookupW d2 x).isEmpty then some (d2, false)
            else ac3Aux p fuel (requeue p x rest) d2
          else ac3Aux p fuel rest d2

/-- Total size of the domain store, used to bound the `ac3` iteration count. -/
def totalSize (d : Doms) : Nat :=
  (d.map fun e => e.2.length).sum

/-- A fuel bound large enough for every terminating run of the worklist loop. -/
def ac3Fuel (p : Puzzle) (d : Doms) : Nat :=
  totalSize d * (2 * p.slots.length + 1) + (initialArcs p).length + 1

/-- `ac3()` as called by `solve`: seeded with all ordered neighbor pairs. -/
def ac3 (p : Puzzle) (d : Doms) : Option (Doms × Bool) :=
  ac3Aux p (ac3Fuel p d) (initialArcs p) d

/-- `assignment_complete`: every crossword variable is a key and its value is
truthy (a non-empty word). -/
def assignment_complete (p : Puzzle) (a : Assignment) : Bool :=
  p.slots.all fun v =>
    match lookupA a v with
    | none => false
    | some w => !w.isEmpty

/-- `value[i] != n_value[j]` as evaluated by `consistent`, returning the
negation (`true` = the characters agree); an out-of-range index raises,
modelled as `none`. -/
def charAgree (w : Word) (i : Nat) (nw : Word) (j : Nat) : Option Bool := do
  let c ← w.get? i
  let c2 ← nw.get? j
  pure (decide (c = c2))

/-- The neighbor loop of `consistent` for a slot `v` assigned word `w`. -/
def consistNbrs (p : Puzzle) (a : Assignment) (w : Word) (v : Slot) :
    List Slot → Option Bool
  | [] => some true
  | n :: rest =>
      match lookupA a n with
      | none => consistNbrs p a w v rest
      | some nw =>
          if nw.isEmpty then consistNbrs p a w v rest
          else if w = nw then some false
          else
            match p.overlaps v n with
            | none => consistNbrs p a w v rest
            | some (i, j) =>
                match charAgree w i nw j with
                | none => none
                | some ok => if ok then consistNbrs p a w v rest else some false

/-- The outer loop of `consistent` over the crossword variables. -/
def consistVars (p : Puzzle) (a : Assignment) : List Slot → Option Bool
  | [] => some true
  | v :: rest =>
      match lookupA a v with
      | none => consistVars p a rest
      | some w =>
          if w.isEmpty then consistVars p a rest
          else if w.length ≠ v.len then some false
          else
            match consistNbrs p a w v (neighbors p v) with
            | none => none
            | some true => consistVars p a rest
            | some false => some false

/-- `consistent(assignment)`; `none` is a raised IndexError. -/
def consistent (p : Puzzle) (a : Assignment) : Option Bool :=
  consistVars p a p.slots

/-- The elimination count `order_values[value]` computed by
`order_domain_values` for one candidate word: over every unassigned neighbor
and every word in that neighbor's domain, count the disagreements at the
overlap offsets. -/
def elimCount (p : Puzzle) (d : Doms) (a : Assignment) (v : Slot) (w : Word) :
    Option Nat :=
  (neighbors p v).foldlM
    (fun acc n =>
      if hasKey a n then pure acc
      else
        match p.overlaps v n with
        | none => none
        | some (i, j) =>
            (lookupW d n).foldlM
              (fun acc2 nw => do
                let ok ← charAgree w i nw j
                pure (if ok then acc2 else acc2 + 1))
              acc)
    0

/-- `order_domain_values(var, assignment)`: the domain of `var` sorted
ascending (stably, as Python's `sorted`) by elimination count. -/
def order_domain_values (p : Puzzle) (d : Doms) (v : Slot) (a : Assignment) :
    Option (List Word) := do
  let pairs ← (lookupW d v).mapM fun w => do
    let c ← elimCount p d a v w
    pure (w, c)
  pure ((List.insertionSort (fun e e2 => e.2 ≤ e2.2) pairs).map fun e => e.1)

/-- `select_unassigned_variable(assignment)`, including its narrow
tie-breaking rule: degree tie-breaking only applies between the first slot
of the size-sorted order and the slots tied with it.  `none` is the
IndexError raised on `sorted_variables[0]` when no slot is unassigned.
Python's stable `sorted` is modelled by the stable `List.insertionSort`;
`reverse=True` keeps the original order of equal elements. -/
def select_unassigned_variable (p : Puzzle) (d : Doms) (a : Assignment) :
    Option Slot :=
  let pairs := (p.slots.filter fun v => !hasKey a v).map fun v => (v, (lookupW d v).length)
  let sortedPairs := List.insertionSort (fun e e2 => e.2 ≤ e2.2) pairs
  let sortedSlots := sortedPairs.map fun e => e.1
  if (pairs.map fun e => e.2).Nodup then sortedSlots.head?
  else
    match sortedPairs with
    | [] => none
    | e0 :: restPairs =>
        let tied := (restPairs.filter fun e => e.2 == e0.2).map fun e => e.1
        if tied.isEmpty then some e0.1
        else
          (List.insertionSort (fun u u2 =>
              (neighbors p u2).length ≤ (neighbors p u).length)
            (e0.1 :: tied)).head?

/-- The candidate loop of `backtrack` for the chosen slot `v`: assign, test
`consistent`, recurse through `recur`, treat a falsy result (`None`, or an
empty dict) as failure, and `pop` the slot again before trying the next
word.  The returned pair is the final state of the mutated dict together
with the success flag (on success Python returns that same dict). -/
def tryWords (p : Puzzle) (recur : Assignment → Option (Assignment × Bool))
    (v : Slot) : List Word → Assignment → Option (Assignment × Bool)
  | [], a => some (a, false)
  | w :: ws, a =>
      let a1 := a ++ [(v, w)]
      match consistent p a1 with
      | none => none
      | some false => tryWords p recur v ws (eraseKey a1 v)
      | some true =>
          match recur a1 with
          | none => none
          | some r =>
              if r.2 && !r.1.isEmpty then some r
              else tryWords p recur v ws (eraseKey r.1 v)

/-- `backtrack(assignment)`: complete when the dict has as many entries as
there are variables; otherwise the first unassigned variable in iteration
order is tried with its domain words in domain order.  Fuel bounds the
recursion depth; `none` is a raised exception or exhausted fuel. -/
def backtrack (p : Puzzle) (d : Doms) : Nat → Assignment → Option (Assignment × Bool)
  | 0, _ => none
  | fuel + 1, a =>
      if p.slots.length = a.length then some (a, true)
      else
        match p.slots.find? (fun v => !hasKey a v) with
        | none => some (a, false)
        | some v => tryWords p (backtrack p d fuel) v (lookupW d v) a

/-- The value `backtrack` hands to its caller: the dict on success, `None`
otherwise. -/
def resultOf (r : Assignment × Bool) : Option Assignment :=
  if r.2 then some r.1 else none

/-- `solve()`: node consistency, then `ac3()` whose boolean result is
discarded, then `backtrack(dict())` unconditionally.  The outer `Option` is
a raised exception (or exhausted fuel), the inner one is the returned
`None`. -/
def solve (p : Puzzle) : Option (Option Assignment) := do
  let d1 := enforce_node_consistency (initDoms p)
  let (d2, _) ← ac3 p d1
  let r ← backtrack p d2 (p.slots.length + 1) []
  pure (resultOf r)

/-- The candidate loop of the backtracking search as the spec words it:
tentatively assign, recurse when consistent, propagate success, otherwise
undo the tentative assignment and try the next candidate.  The outer
`Option` is a raised exception; the inner one is the failure signal. -/
def specTry (p : Puzzle) (recur : Assignment → Option (Option Assignment))
    (v : Slot) : List Word → Assignment → Option (Option Assignment)
  | [], _ => some none
  | w :: ws, a =>
      match consistent p (a ++ [(v, w)]) with
      | none => none
      | some false => specTry p recur v ws a
      | some true =>
          match recur (a ++ [(v, w)]) with
          | none => none
          | some (some r) => some (some r)
          | some none => specTry p recur v ws a

/-- The backtracking search exactly as the spec describes it: if the
assignment is complete return it, otherwise select the next slot with
`select_unassigned_variable` and try its words in `order_domain_values`
order. -/
def backtrackSpec (p : Puzzle) (d : Doms) : Nat → Assignment → Option (Option Assignment)
  | 0, _ => none
  | fuel + 1, a =>
      if assignment_complete p a then some (some a)
      else
        match select_unassigned_variable p d a with
        | none => none
        | some v =>
            match order_domain_values p d v a with
            | none => none
            | some vals => specTry p (backtrackSpec p d fuel) v vals a

/-- The search structured as the spec describes it but with the slot choice
and word order the code actually uses: the first unassigned variable in
iteration order and the domain's stored order. -/
def backtrackFirstOrder (p : Puzzle) (d : Doms) : Nat → Assignment →
    Option (Option Assignment)
  | 0, _ => none
  | fuel + 1, a =>
      if assignment_complete p a then some (some a)
      else
        match p.slots.find? (fun v => !hasKey a v) with
        | none => some none
        | some v => specTry p (backtrackFirstOrder p d fuel) v (lookupW d v) a

/-- The property claimed of `consistent`, in the claim's own words: every
assigned slot's word has the slot's length, and every pair of distinct
assigned slots that overlap carries non-identical words agreeing at the
overlap offsets. -/
def consistentClaim (p : Puzzle) (a : Assignment) : Bool :=
  (a.all fun e => e.2.length == e.1.len) &&
  (a.all fun e => a.all fun e2 =>
    if e.1 = e2.1 then true
    else
      match p.overlaps e.1 e2.1 with
      | none => true
      | some (i, j) =>
          decide (e.2 ≠ e2.2) &&
          match e.2.get? i, e2.2.get? j with
          | some c, some c2 => c == c2
          | _, _ => false)

/-- The characterization `consistent` actually satisfies: only slots assigned
a non-empty word are checked, for length, for word distinctness from every
assigned non-empty neighbor, and for agreement (within range) at the
overlap offsets. -/
def consistentHolds (p : Puzzle) (a : Assignment) : Prop :=
  ∀ v ∈ p.slots, ∀ w, lookupA a v = some w → w ≠ [] →
    w.length = v.len ∧
    ∀ n ∈ neighbors p v, ∀ nw, lookupA a n = some nw → nw ≠ [] →
      w ≠ nw ∧
      ∀ i j, p.overlaps v n = some (i, j) →
        ∃ c, w.get? i = some c ∧ nw.get? j = some c

/-- An assignment built from a total choice of words, in slot order. -/
def mkAssign (p : Puzzle) (s : Slot → Word) : Assignment :=
  p.slots.map fun v => (v, s v)

/-- The keys of an assignment dict. -/
def keys (a : Assignment) : List Slot := a.map fun e => e.1

/-- An assignment dict has pairwise distinct keys. -/
def NodupKeys (a : Assignment) : Prop := (keys a).Nodup

/-- The per-neighbor condition checked by `consistNbrs`. -/
def nbrOK (p : Puzzle) (a : Assignment) (w : Word) (v n : Slot) : Prop :=
  ∀ nw, lookupA a n = some nw → nw ≠ [] →
    w ≠ nw ∧
    ∀ i j, p.overlaps v n = some (i, j) →
      ∃ c, w.get? i = some c ∧ nw.get? j = some c

/-- The per-slot condition checked by `consistVars`. -/
def slotOK (p : Puzzle) (a : Assignment) (v : Slot) : Prop :=
  ∀ w, lookupA a v = some w → w ≠ [] →
    w.length = v.len ∧ ∀ n ∈ neighbors p v, nbrOK p a w v n

/-- Arc consistency of `x` with respect to `y`: every word in `x`'s domain
has a partner in `y`'s domain agreeing at the overlap offsets. -/
def ArcCons (p : Puzzle) (d : Doms) (x y : Slot) : Prop :=
  ∀ i j, p.overlaps x y = some (i, j) →
    ∀ w ∈ lookupW d x, ∃ w2 ∈ lookupW d y,
      ∃ c, w.get? i = some c ∧ w2.get? j = some c

/-- The `ac3` worklist invariant: every ordered neighbor pair is pending on
the worklist or already arc consistent. -/
def AllCons (p : Puzzle) (d : Doms) (arcs : List (Slot × Slot)) : Prop :=
  ∀ x ∈ p.slots, ∀ y ∈ neighbors p x, (x, y) ∈ arcs ∨ ArcCons p d x y

/-! Concrete puzzles used as witnesses and counterexamples. -/

/-- A 3-letter across slot whose cells are (1,0), (1,1), (1,2). -/
def sA : Slot := ⟨1, 0, Direction.across, 3⟩

/-- A 3-letter down slot whose cells are (0,1), (1,1), (2,1); it crosses `sA`
at cell (1,1), character 1 of each. -/
def sD : Slot := ⟨0, 1, Direction.down, 3⟩

/-- A 3-letter down slot whose cells are (1,1), (2,1), (3,1); it crosses `sA`
at cell (1,1): character 1 of `sA`, character 0 of `sDlow`. -/
def sDlow : Slot := ⟨1, 1, Direction.down, 3⟩

/-- A lone 3-letter across slot. -/
def sLone : Slot := ⟨0, 0, Direction.across, 3⟩

/-- A second slot sharing no cell with `sLone`. -/
def sFar : Slot := ⟨2, 0, Direction.across, 3⟩

def wCAT : Word := ['C', 'A', 'T']
def wDOG : Word := ['D', 'O', 'G']
def wTAG : Word := ['T', 'A', 'G']
def wTOG : Word := ['T', 'O', 'G']
def wGOT : Word := ['G', 'O', 'T']
def wGAT : Word := ['G', 'A', 'T']

/-- The spec's example: two 3-slots crossing at their middle cells, with
vocabulary CAT, DOG, TAG. -/
def pCross : Puzzle :=
  ⟨[sA, sD], [wCAT, wDOG, wTAG], [((sA, sD), (1, 1)), ((sD, sA), (1, 1))]⟩

/-- Two crossing slots whose overlap offsets (1 in `sA`, 0 in `sDlow`) admit
no compatible pair from the vocabulary CAT, DOG: `ac3` empties a domain. -/
def pUnsat : Puzzle :=
  ⟨[sA, sDlow], [wCAT, wDOG], [((sA, sDlow), (1, 0)), ((sDlow, sA), (0, 1))]⟩

/-- One lone slot of length 3. -/
def pOne : Puzzle := ⟨[sLone], [wCAT], []⟩

/-- Two slots with no overlap at all. -/
def pDisjoint : Puzzle := ⟨[sLone, sFar], [wCAT], []⟩

/-- The crossing puzzle with unequal hand-picked domains, under which the
heuristic-driven search and the code's search return different mappings. -/
def pTwo : Puzzle :=
  ⟨[sA, sD], [wCAT, wTOG, wDOG, wGOT, wGAT], [((sA, sD), (1, 1)), ((sD, sA), (1, 1))]⟩

/-- Domains for `pTwo`: three candidates for `sA`, two for `sD`. -/
def dTwo : Doms := [(sA, [wCAT, wTOG, wDOG]), (sD, [wGOT, wGAT])]

/-- Domains under which the only candidates for the two crossing slots
disagree at the shared cell. -/
def dClash : Doms := [(sA, [wCAT]), (sD, [wDOG])]

/-- The domain store produced by the consistency phase on `pCross` (no word
is pruned: every word has length 3 and has a partner at the crossing). -/
def dCrossPruned : Doms :=
  [(sA, [wCAT, wDOG, wTAG]), (sD, [wCAT, wDOG, wTAG])]

/-! Basic lemmas about the dict models. -/

theorem lookupA_eq_none {a : Assignment} {v : Slot} :
    lookupA a v = none ↔ ∀ e ∈ a, e.1 ≠ v := by
  induction a with
  | nil => simp [lookupA]
  | cons e rest ih =>
      by_cases h : e.1 = v
      · simp [lookupA, h]
      · simp [lookupA, h, ih]

theorem hasKey_eq_false {a : Assignment} {v : Slot} :
    hasKey a v = false ↔ lookupA a v = none := by
  unfold hasKey
  cases lookupA a v <;> simp

theorem lookupA_mem {a : Assignment} {v : Slot} {w : Word}
    (h : lookupA a v = some w) : (v, w) ∈ a := by
  induction a with
  | nil => simp [lookupA] at h
  | cons e rest ih =>
      by_cases he : e.1 = v
      · rw [lookupA, if_pos he] at h
        obtain ⟨u, w2⟩ := e
        have hu : u = v := he
        have hw : w2 = w := Option.some.inj h
        subst hu
        subst hw
        exact List.mem_cons_self _ _
      · rw [lookupA, if_neg he] at h
        exact List.mem_cons_of_mem _ (ih h)

theorem lookupA_append {a b : Assignment} {v : Slot} :
    lookupA (a ++ b) v =
      match lookupA a v with
      | some w => some w
      | none => lookupA b v := by
  induction a with
  | nil => simp [lookupA]
  | cons e rest ih =>
      by_cases he : e.1 = v
      · simp [lookupA, he]
      · simp [lookupA, he, ih]

theorem lookupA_append_single_self {a : Assignment} {v : Slot} {w : Word}
    (h : lookupA a v = none) : lookupA (a ++ [(v, w)]) v = some w := by
  rw [lookupA_append, h]
  simp [lookupA]

theorem lookupA_append_single_ne {a : Assignment} {v u : Slot} {w : Word}
    (h : u ≠ v) : lookupA (a ++ [(v, w)]) u = lookupA a u := by
  rw [lookupA_append]
  cases ha : lookupA a u
  · simp [lookupA, Ne.symm h]
  · rfl

theorem eraseKey_append_self {a : Assignment} {v : Slot} {w : Word}
    (h : lookupA a v = none) : eraseKey (a ++ [(v, w)]) v = a := by
  have hall := lookupA_eq_none.mp h
  unfold eraseKey
  rw [List.filter_append]
  have h1 : a.filter (fun e => decide (e.1 ≠ v)) = a := by
    apply List.filter_eq_self.mpr
    intro e he
    simpa using hall e he
  have h2 : ([(v, w)] : Assignment).filter (fun e => decide (e.1 ≠ v)) = [] := by
    simp
  rw [h1, h2, List.append_nil]

theorem keys_append {a b : Assignment} : keys (a ++ b) = keys a ++ keys b := by
  simp [keys]

theorem length_eq_keys_length {a : Assignment} : a.length = (keys a).length := by
  simp [keys]

theorem mem_keys_iff_lookupA {a : Assignment} {v : Slot} :
    v ∈ keys a ↔ (lookupA a v).isSome = true := by
  induction a with
  | nil => simp [keys, lookupA]
  | cons e rest ih =>
      by_cases he : e.1 = v
      · simp [keys, lookupA, he]
      · simp only [keys, List.map_cons, List.mem_cons, lookupA, if_neg he]
        constructor
        · intro h
          rcases h with h | h
          · exact absurd h.symm he
          · exact (ih.mp (by simpa [keys] using h))
        · intro h
          exact Or.inr (by simpa [keys] using ih.mpr h)

/-! Characterization of `consistent` (the C8 machinery). -/

theorem charAgree_eq_some_true {w nw : Word} {i j : Nat} :
    charAgree w i nw j = some true ↔
      ∃ c, w.get? i = some c ∧ nw.get? j = some c := by
  unfold charAgree
  cases hw : w.get? i with
  | none => simp
  | some c =>
      cases hn : nw.get? j with
      | none => simp
      | some c2 =>
          simp only [Option.bind_eq_bind, Option.some_bind, Option.pure_def]
          constructor
          · intro h
            have : decide (c = c2) = true := by
              have := Option.some.inj h
              exact this
            exact ⟨c, rfl, by rw [of_decide_eq_true this]⟩
          · rintro ⟨c3, hc3, hc3'⟩
            have h1 : c = c3 := Option.some.inj hc3
            have h2 : c2 = c3 := Option.some.inj hc3'
            subst h1
            rw [h2]
            simp

theorem nbrOK_of_no_val {p : Puzzle} {a : Assignment} {w : Word} {v n : Slot}
    (hn : lookupA a n = none) : nbrOK p a w v n := by
  intro nw hnw
  rw [hn] at hnw
  exact absurd hnw (by simp)

theorem nbrOK_of_empty {p : Puzzle} {a : Assignment} {w : Word} {v n : Slot}
    (hn : lookupA a n = some []) : nbrOK p a w v n := by
  intro nw hnw hne
  rw [hn] at hnw
  exact absurd (Option.some.inj hnw).symm hne

theorem isEmpty_true_iff {w : Word} : w.isEmpty = true ↔ w = [] := by
  cases w <;> simp [List.isEmpty]

theorem consistNbrs_cons_skip {p : Puzzle} {a : Assignment} {w : Word}
    {v n : Slot} {rest : List Slot} (hn : lookupA a n = none) :
    consistNbrs p a w v (n :: rest) = consistNbrs p a w v rest := by
  simp [consistNbrs, hn]

theorem consistNbrs_cons_empty {p : Puzzle} {a : Assignment} {w : Word}
    {v n : Slot} {rest : List Slot} (hn : lookupA a n = some []) :
    consistNbrs p a w v (n :: rest) = consistNbrs p a w v rest := by
  simp [consistNbrs, hn, List.isEmpty]

theorem consistNbrs_cons_dup {p : Puzzle} {a : Assignment} {w nw : Word}
    {v n : Slot} {rest : List Slot} (hn : lookupA a n = some nw)
    (hne : nw ≠ []) (hw : w = nw) :
    consistNbrs p a w v (n :: rest) = some false := by
  have he : nw.isEmpty = false := by
    cases nw
    · exact absurd rfl hne
    · rfl
  simp [consistNbrs, hn, he, hw]

theorem consistNbrs_cons_noov {p : Puzzle} {a : Assignment} {w nw : Word}
    {v n : Slot} {rest : List Slot} (hn : lookupA a n = some nw)
    (hne : nw ≠ []) (hw : w ≠ nw) (hov : p.overlaps v n = none) :
    consistNbrs p a w v (n :: rest) = consistNbrs p a w v rest := by
  have he : nw.isEmpty = false := by
    cases nw
    · exact absurd rfl hne
    · rfl
  simp [consistNbrs, hn, he, hw, hov]

theorem consistNbrs_cons_ov {p : Puzzle} {a : Assignment} {w nw : Word}
    {v n : Slot} {rest : List Slot} {i j : Nat} (hn : lookupA a n = some nw)
    (hne : nw ≠ []) (hw : w ≠ nw) (hov : p.overlaps v n = some (i, j)) :
    consistNbrs p a w v (n :: rest) =
      match charAgree w i nw j with
      | none => none
      | some ok => if ok then consistNbrs p a w v rest else some false := by
  have he : nw.isEmpty = false := by
    cases nw
    · exact absurd rfl hne
    · rfl
  simp [consistNbrs, hn, he, hw, hov]

theorem consistNbrs_eq_some_true {p : Puzzle} {a : Assignment} {w : Word}
    {v : Slot} {L : List Slot} :
    consistNbrs p a w v L = some true ↔ ∀ n ∈ L, nbrOK p a w v n := by
  induction L with
  | nil => simp [consistNbrs]
  | cons n rest ih =>
      have hsplit : ∀ q : Prop, (consistNbrs p a w v rest = some true ↔ q) →
          (nbrOK p a w v n) →
          (consistNbrs p a w v (n :: rest) = consistNbrs p a w v rest) →
          (consistNbrs p a w v (n :: rest) = some true ↔
            ∀ m ∈ n :: rest, nbrOK p a w v m) := by
        intro q hq hok heq
        rw [heq, ih]
        constructor
        · intro h m hm
          rcases List.mem_cons.mp hm with hm | hm
          · exact hm ▸ hok
          · exact h m hm
        · intro h m hm
          exact h m (List.mem_cons_of_mem _ hm)
      cases hn : lookupA a n with
      | none =>
          exact hsplit _ ih (nbrOK_of_no_val hn) (consistNbrs_cons_skip hn)
      | some nw =>
          rcases eq_or_ne nw [] with hnil | hnnil
          · subst hnil
            exact hsplit _ ih (nbrOK_of_empty hn) (consistNbrs_cons_empty hn)
          by_cases hw : w = nw
          · rw [consistNbrs_cons_dup hn hnnil hw]
            constructor
            · intro h
              exact absurd h (by simp)
            · intro h
              exact absurd hw (h n (List.mem_cons_self n rest) nw hn hnnil).1
          cases hov : p.overlaps v n with
          | none =>
              refine hsplit _ ih ?_ (consistNbrs_cons_noov hn hnnil hw hov)
              intro nw2 hnw2 _
              rw [hn] at hnw2
              cases Option.some.inj hnw2
              refine ⟨hw, ?_⟩
              intro i j hij
              rw [hov] at hij
              exact absurd hij (by simp)
          | some ij =>
              obtain ⟨i, j⟩ := ij
              cases hca : charAgree w i nw j with
              | none =>
                  have heq : consistNbrs p a w v (n :: rest) = none := by
                    rw [consistNbrs_cons_ov hn hnnil hw hov, hca]
                  rw [heq]
                  constructor
                  · intro h
                    exact absurd h (by simp)
                  · intro h
                    obtain ⟨c, hc1, hc2⟩ :=
                      (h n (List.mem_cons_self n rest) nw hn hnnil).2 i j hov
                    have hx : charAgree w i nw j = some true :=
                      charAgree_eq_some_true.mpr ⟨c, hc1, hc2⟩
                    rw [hca] at hx
                    exact absurd hx (by simp)
              | some ok =>
                  cases ok with
                  | true =>
                      have heq : consistNbrs p a w v (n :: rest) =
                          consistNbrs p a w v rest := by
                        rw [consistNbrs_cons_ov hn hnnil hw hov, hca]
                        rfl
                      refine hsplit _ ih ?_ heq
                      intro nw2 hnw2 _
                      rw [hn] at hnw2
                      cases Option.some.inj hnw2
                      refine ⟨hw, ?_⟩
                      intro i2 j2 hij2
                      rw [hov] at hij2
                      have hinj := Option.some.inj hij2
                      have hi : i = i2 := congrArg Prod.fst hinj
                      have hj : j = j2 := congrArg Prod.snd hinj
                      subst hi
                      subst hj
                      exact charAgree_eq_some_true.mp hca
                  | false =>
                      have heq : consistNbrs p a w v (n :: rest) = some false := by
                        rw [consistNbrs_cons_ov hn hnnil hw hov, hca]
                        rfl
                      rw [heq]
                      constructor
                      · intro h
                        exact absurd h (by simp)
                      · intro h
                        obtain ⟨c, hc1, hc2⟩ :=
                          (h n (List.mem_cons_self n rest) nw hn hnnil).2 i j hov
                        have hx : charAgree w i nw j = some true :=
                          charAgree_eq_some_true.mpr ⟨c, hc1, hc2⟩
                        rw [hca] at hx
                        exact absurd hx (by simp)

theorem slotOK_of_no_val {p : Puzzle} {a : Assignment} {v : Slot}
    (hv : lookupA a v = none) : slotOK p a v := by
  intro w hw
  rw [hv] at hw
  exact absurd hw (by simp)

theorem slotOK_of_empty {p : Puzzle} {a : Assignment} {v : Slot}
    (hv : lookupA a v = some []) : slotOK p a v := by
  intro w hw hne
  rw [hv] at hw
  exact absurd (Option.some.inj hw).symm hne

theorem consistVars_cons_skip {p : Puzzle} {a : Assignment} {v : Slot}
    {rest : List Slot} (hv : lookupA a v = none) :
    consistVars p a (v :: rest) = consistVars p a rest := by
  simp [consistVars, hv]

theorem consistVars_cons_empty {p : Puzzle} {a : Assignment} {v : Slot}
    {rest : List Slot} (hv : lookupA a v = some []) :
    consistVars p a (v :: rest) = consistVars p a rest := by
  simp [consistVars, hv, List.isEmpty]

theorem consistVars_cons_badlen {p : Puzzle} {a : Assignment} {v : Slot}
    {rest : List Slot} {w : Word} (hv : lookupA a v = some w) (hne : w ≠ [])
    (hlen : w.length ≠ v.len) : consistVars p a (v :: rest) = some false := by
  have he : w.isEmpty = false := by
    cases w
    · exact absurd rfl hne
    · rfl
  simp [consistVars, hv, he, hlen]

theorem consistVars_cons_checked {p : Puzzle} {a : Assignment} {v : Slot}
    {rest : List Slot} {w : Word} (hv : lookupA a v = some w) (hne : w ≠ [])
    (hlen : w.length = v.len) :
    consistVars p a (v :: rest) =
      match consistNbrs p a w v (neighbors p v) with
      | none => none
      | some true => consistVars p a rest
      | some false => some false := by
  have he : w.isEmpty = false := by
    cases w
    · exact absurd rfl hne
    · rfl
  simp [consistVars, hv, he, hlen]

theorem consistVars_eq_some_true {p : Puzzle} {a : Assignment} {L : List Slot} :
    consistVars p a L = some true ↔ ∀ v ∈ L, slotOK p a v := by
  induction L with
  | nil => simp [consistVars]
  | cons v rest ih =>
      have hsplit : slotOK p a v →
          (consistVars p a (v :: rest) = consistVars p a rest) →
          (consistVars p a (v :: rest) = some true ↔ ∀ m ∈ v :: rest, slotOK p a m) := by
        intro hok heq
        rw [heq, ih]
        constructor
        · intro h m hm
          rcases List.mem_cons.mp hm with hm | hm
          · exact hm ▸ hok
          · exact h m hm
        · intro h m hm
          exact h m (List.mem_cons_of_mem _ hm)
      cases hv : lookupA a v with
      | none => exact hsplit (slotOK_of_no_val hv) (consistVars_cons_skip hv)
      | some w =>
          rcases eq_or_ne w [] with hnil | hwnil
          · subst hnil
            exact hsplit (slotOK_of_empty hv) (consistVars_cons_empty hv)
          by_cases hlen : w.length = v.len
          · rw [consistVars_cons_checked hv hwnil hlen]
            cases hnb : consistNbrs p a w v (neighbors p v) with
            | none =>
                constructor
                · intro h
                  exact absurd h (by simp)
                · intro h
                  have hx := consistNbrs_eq_some_true.mpr
                    (h v (List.mem_cons_self v rest) w hv hwnil).2
                  rw [hnb] at hx
                  exact absurd hx (by simp)
            | some ok =>
                cases ok with
                | true =>
                    rw [ih]
                    constructor
                    · intro h m hm
                      rcases List.mem_cons.mp hm with hm | hm
                      · subst hm
                        intro w2 hw2 _
                        rw [hv] at hw2
                        cases Option.some.inj hw2
                        exact ⟨hlen, consistNbrs_eq_some_true.mp hnb⟩
                      · exact h m hm
                    · intro h m hm
                      exact h m (List.mem_cons_of_mem _ hm)
                | false =>
                    constructor
                    · intro h
                      exact absurd h (by simp)
                    · intro h
                      have hx := consistNbrs_eq_some_true.mpr
                        (h v (List.mem_cons_self v rest) w hv hwnil).2
                      rw [hnb] at hx
                      exact absurd hx (by simp)
          · rw [consistVars_cons_badlen hv hwnil hlen]
            constructor
            · intro h
              exact absurd h (by simp)
            · intro h
              exact absurd (h v (List.mem_cons_self v rest) w hv hwnil).1 hlen

theorem lookupOv_mem {l : List ((Slot × Slot) × (Nat × Nat))} {k : Slot × Slot}
    {val : Nat × Nat} (h : lookupOv l k = some val) : (k, val) ∈ l := by
  induction l with
  | nil => simp [lookupOv] at h
  | cons e rest ih =>
      by_cases he : e.1 = k
      · rw [lookupOv, if_pos he] at h
        obtain ⟨k2, v2⟩ := e
        have h1 : k2 = k := he
        have h2 : v2 = val := Option.some.inj h
        subst h1
        subst h2
        exact List.mem_cons_self _ _
      · rw [lookupOv, if_neg he] at h
        exact List.mem_cons_of_mem _ (ih h)

theorem symmOK_overlaps {p : Puzzle} (hs : symmOK p = true) {x y : Slot}
    {i j : Nat} (h : p.overlaps x y = some (i, j)) :
    p.overlaps y x = some (j, i) := by
  have hmem : ((x, y), (i, j)) ∈ p.olist := lookupOv_mem h
  have := List.all_eq_true.mp hs _ hmem
  exact eq_of_beq this

theorem boundsOK_overlaps {p : Puzzle} (hb : boundsOK p = true) {x y : Slot}
    {i j : Nat} (h : p.overlaps x y = some (i, j)) : i < x.len ∧ j < y.len := by
  have hmem : ((x, y), (i, j)) ∈ p.olist := lookupOv_mem h
  have := List.all_eq_true.mp hb _ hmem
  simpa using this

theorem mem_neighbors {p : Puzzle} {v u : Slot} :
    u ∈ neighbors p v ↔ u ∈ p.slots ∧ u ≠ v ∧ (p.overlaps v u).isSome := by
  simp [neighbors, List.mem_filter, and_assoc]

theorem neighbors_symm {p : Puzzle} (hs : symmOK p = true) {x y : Slot}
    (hx : x ∈ p.slots) (hy : y ∈ neighbors p x) : x ∈ neighbors p y := by
  obtain ⟨hy1, hy2, hy3⟩ := mem_neighbors.mp hy
  rcases Option.isSome_iff_exists.mp hy3 with ⟨ij, hij⟩
  obtain ⟨i, j⟩ := ij
  refine mem_neighbors.mpr ⟨hx, ?_, ?_⟩
  · exact fun h => hy2 h.symm
  · rw [symmOK_overlaps hs hij]
    rfl

/-! Lemmas about the domain store and `revise`. -/

theorem setD_eq_of_not_contains {d : Doms} {x : Slot} {ws : List Word}
    (h : containsD d x = false) : setD d x ws = d := by
  induction d with
  | nil => rfl
  | cons e rest ih =>
      have h2 : (e.1 == x) = false ∧ containsD rest x = false := by
        unfold containsD at h
        simp only [List.any_cons, Bool.or_eq_false_iff] at h
        exact ⟨h.1, h.2⟩
      have he : e.1 ≠ x := by
        intro hc
        rw [hc] at h2
        simp at h2
      unfold setD
      simp only [List.map_cons, if_neg he]
      have := ih h2.2
      unfold setD at this
      rw [this]

theorem lookupW_setD_ne {d : Doms} {x v : Slot} {ws : List Word}
    (h : v ≠ x) : lookupW (setD d x ws) v = lookupW d v := by
  induction d with
  | nil => rfl
  | cons e rest ih =>
      unfold setD
      simp only [List.map_cons]
      by_cases he : e.1 = x
      · rw [if_pos he, lookupW]
        rw [if_neg (fun hc => h (show v = x from hc.symm))]
        rw [lookupW, if_neg (fun hc : e.1 = v => h (he.symm.trans hc).symm)]
        exact ih
      · rw [if_neg he]
        rw [lookupW, lookupW]
        by_cases hv : e.1 = v
        · rw [if_pos hv, if_pos hv]
        · rw [if_neg hv, if_neg hv]
          exact ih

theorem lookupW_setD_self {d : Doms} {x : Slot} {ws : List Word}
    (h : containsD d x = true) : lookupW (setD d x ws) x = ws := by
  induction d with
  | nil => simp [containsD] at h
  | cons e rest ih =>
      unfold setD
      simp only [List.map_cons]
      by_cases he : e.1 = x
      · rw [if_pos he, lookupW, if_pos rfl]
      · rw [if_neg he, lookupW, if_neg he]
        have h2 : containsD rest x = true := by
          unfold containsD at h
          simp only [List.any_cons, Bool.or_eq_true] at h
          rcases h with h | h
          · exact absurd (eq_of_beq h) he
          · exact h
        exact ih h2

theorem not_containsD_lookupW {d : Doms} {x : Slot}
    (h : containsD d x = false) : lookupW d x = [] := by
  induction d with
  | nil => rfl
  | cons e rest ih =>
      have h2 : (e.1 == x) = false ∧ containsD rest x = false := by
        unfold containsD at h
        simp only [List.any_cons, Bool.or_eq_false_iff] at h
        exact ⟨h.1, h.2⟩
      have he : e.1 ≠ x := by
        intro hc
        rw [hc] at h2
        simp at h2
      rw [lookupW, if_neg he]
      exact ih h2.2

theorem filterSupported_sublist {i j : Nat} {ys xs l : List Word}
    (h : filterSupported i j ys xs = some l) : l.Sublist xs := by
  induction xs generalizing l with
  | nil =>
      rw [filterSupported] at h
      cases Option.some.inj h
      exact List.Sublist.refl _
  | cons wx rest ih =>
      rw [filterSupported] at h
      cases hb : anySupport i j wx ys with
      | none => rw [hb] at h; exact absurd h (by simp)
      | some b =>
          rw [hb] at h
          cases ht : filterSupported i j ys rest with
          | none => rw [ht] at h; exact absurd h (by simp)
          | some tail =>
              rw [ht] at h
              simp only [Option.bind_eq_bind, Option.some_bind, Option.pure_def] at h
              cases b with
              | true =>
                  cases Option.some.inj h
                  exact List.Sublist.cons₂ _ (ih ht)
              | false =>
                  cases Option.some.inj h
                  exact List.Sublist.cons _ (ih ht)

theorem anySupport_eq_some_true {i j : Nat} {ys : List Word} {wx : Word}
    (h : anySupport i j wx ys = some true) :
    ∃ wy ∈ ys, ∃ c, wx.get? i = some c ∧ wy.get? j = some c := by
  induction ys with
  | nil =>
      rw [anySupport] at h
      exact absurd (Option.some.inj h) (by simp)
  | cons wy rest ih =>
      rw [anySupport] at h
      cases hc : wx.get? i with
      | none => rw [hc] at h; exact absurd h (by simp)
      | some c =>
          rw [hc] at h
          cases hc2 : wy.get? j with
          | none => rw [hc2] at h; exact absurd h (by simp)
          | some c2 =>
              rw [hc2] at h
              simp only [Option.bind_eq_bind, Option.some_bind] at h
              by_cases he : c = c2
              · exact ⟨wy, List.mem_cons_self _ _, c, rfl, he ▸ hc2⟩
              · rw [if_neg he] at h
                obtain ⟨wy2, hm, c3, hcc, hc4⟩ := ih h
                exact ⟨wy2, List.mem_cons_of_mem _ hm, c3, hc ▸ hcc, hc4⟩

theorem filterSupported_mem_support {i j : Nat} {ys xs l : List Word}
    (h : filterSupported i j ys xs = some l) :
    ∀ w ∈ l, anySupport i j w ys = some true := by
  induction xs generalizing l with
  | nil =>
      rw [filterSupported] at h
      cases Option.some.inj h
      intro w hw
      exact absurd hw (by simp)
  | cons wx rest ih =>
      rw [filterSupported] at h
      cases hb : anySupport i j wx ys with
      | none => rw [hb] at h; exact absurd h (by simp)
      | some b =>
          rw [hb] at h
          cases ht : filterSupported i j ys rest with
          | none => rw [ht] at h; exact absurd h (by simp)
          | some tail =>
              rw [ht] at h
              simp only [Option.bind_eq_bind, Option.some_bind, Option.pure_def] at h
              cases b with
              | true =>
                  cases Option.some.inj h
                  intro w hw
                  rcases List.mem_cons.mp hw with hw | hw
                  · exact hw ▸ hb
                  · exact ih ht w hw
              | false =>
                  cases Option.some.inj h
                  exact ih ht

theorem revise_none_ov {p : Puzzle} {d : Doms} {x y : Slot}
    (hov : p.overlaps x y = none) : revise p d x y = none := by
  unfold revise
  rw [hov]

theorem revise_eq_of_ov {p : Puzzle} {d : Doms} {x y : Slot} {i j : Nat}
    (hov : p.overlaps x y = some (i, j)) :
    revise p d x y =
      match filterSupported i j (lookupW d y) (lookupW d x) with
      | none => none
      | some valid =>
          if valid = lookupW d x then some (d, false)
          else some (setD d x valid, true) := by
  simp only [revise, hov]
  cases hf : filterSupported i j (lookupW d y) (lookupW d x) with
  | none => rfl
  | some valid => rfl

theorem revise_unchanged {p : Puzzle} {d d2 : Doms} {x y : Slot}
    (h : revise p d x y = some (d2, false)) : d2 = d := by
  cases hov : p.overlaps x y with
  | none => rw [revise_none_ov hov] at h; exact absurd h (by simp)
  | some ij =>
      obtain ⟨i, j⟩ := ij
      rw [revise_eq_of_ov hov] at h
      cases hf : filterSupported i j (lookupW d y) (lookupW d x) with
      | none => rw [hf] at h; exact absurd h (by simp)
      | some valid =>
          rw [hf] at h
          have h2 : (if valid = lookupW d x then some (d, false)
              else some (setD d x valid, true) : Option (Doms × Bool)) =
              some (d2, false) := h
          by_cases hv : valid = lookupW d x
          · rw [if_pos hv] at h2
            exact congrArg Prod.fst (Option.some.inj h2) |>.symm
          · rw [if_neg hv] at h2
            have := congrArg Prod.snd (Option.some.inj h2)
            exact absurd this (by simp)

theorem revise_changed {p : Puzzle} {d d2 : Doms} {x y : Slot}
    (h : revise p d x y = some (d2, true)) :
    ∃ i j valid, p.overlaps x y = some (i, j) ∧
      filterSupported i j (lookupW d y) (lookupW d x) = some valid ∧
      valid ≠ lookupW d x ∧ d2 = setD d x valid := by
  cases hov : p.overlaps x y with
  | none => rw [revise_none_ov hov] at h; exact absurd h (by simp)
  | some ij =>
      obtain ⟨i, j⟩ := ij
      rw [revise_eq_of_ov hov] at h
      cases hf : filterSupported i j (lookupW d y) (lookupW d x) with
      | none => rw [hf] at h; exact absurd h (by simp)
      | some valid =>
          rw [hf] at h
          have h2 : (if valid = lookupW d x then some (d, false)
              else some (setD d x valid, true) : Option (Doms × Bool)) =
              some (d2, true) := h
          by_cases hv : valid = lookupW d x
          · rw [if_pos hv] at h2
            have := congrArg Prod.snd (Option.some.inj h2)
            exact absurd this (by simp)
          · rw [if_neg hv] at h2
            exact ⟨i, j, valid, rfl, hf, hv,
              (congrArg Prod.fst (Option.some.inj h2)).symm⟩

theorem revise_sublist {p : Puzzle} {d d2 : Doms} {x y : Slot} {ch : Bool}
    (h : revise p d x y = some (d2, ch)) :
    ∀ v, (lookupW d2 v).Sublist (lookupW d v) := by
  cases ch with
  | false =>
      rw [revise_unchanged h]
      exact fun v => List.Sublist.refl _
  | true =>
      obtain ⟨i, j, valid, hov, hf, hne, hd2⟩ := revise_changed h
      intro v
      subst hd2
      by_cases hv : v = x
      · subst hv
        cases hc : containsD d v with
        | false => rw [setD_eq_of_not_contains hc]
        | true =>
            rw [lookupW_setD_self hc]
            exact filterSupported_sublist hf
      · rw [lookupW_setD_ne hv]

theorem consistent_eq_some_true {p : Puzzle} {a : Assignment} :
    consistent p a = some true ↔ consistentHolds p a := by
  unfold consistent consistentHolds
  rw [consistVars_eq_some_true]
  unfold slotOK nbrOK
  constructor
  · intro h v hv w hw hwne
    obtain ⟨h1, h2⟩ := h v hv w hw hwne
    exact ⟨h1, fun n hn nw hnw hnwne => h2 n hn nw hnw hnwne⟩
  · intro h v hv w hw hwne
    obtain ⟨h1, h2⟩ := h v hv w hw hwne
    exact ⟨h1, fun n hn nw hnw hnwne => h2 n hn nw hnw hnwne⟩

/-! Lemmas about the `ac3` worklist loop. -/

theorem ac3Aux_cons_crash {p : Puzzle} {d : Doms} {x y : Slot} {fuel : Nat}
    {rest : List (Slot × Slot)} (hr : revise p d x y = none) :
    ac3Aux p (fuel + 1) ((x, y) :: rest) d = none := by
  simp [ac3Aux, hr]

theorem ac3Aux_cons_false {p : Puzzle} {d d2 : Doms} {x y : Slot} {fuel : Nat}
    {rest : List (Slot × Slot)} (hr : revise p d x y = some (d2, false)) :
    ac3Aux p (fuel + 1) ((x, y) :: rest) d = ac3Aux p fuel rest d2 := by
  simp [ac3Aux, hr]

theorem ac3Aux_cons_true_empty {p : Puzzle} {d d2 : Doms} {x y : Slot}
    {fuel : Nat} {rest : List (Slot × Slot)}
    (hr : revise p d x y = some (d2, true)) (he : (lookupW d2 x).isEmpty = true) :
    ac3Aux p (fuel + 1) ((x, y) :: rest) d = some (d2, false) := by
  simp [ac3Aux, hr, he]

theorem ac3Aux_cons_true_cont {p : Puzzle} {d d2 : Doms} {x y : Slot}
    {fuel : Nat} {rest : List (Slot × Slot)}
    (hr : revise p d x y = some (d2, true)) (he : (lookupW d2 x).isEmpty = false) :
    ac3Aux p (fuel + 1) ((x, y) :: rest) d =
      ac3Aux p fuel (requeue p x rest) d2 := by
  simp [ac3Aux, hr, he]

theorem ac3Aux_sublist {p : Puzzle} {fuel : Nat} :
    ∀ {arcs : List (Slot × Slot)} {d d2 : Doms} {b : Bool},
      ac3Aux p fuel arcs d = some (d2, b) →
      ∀ v, (lookupW d2 v).Sublist (lookupW d v) := by
  induction fuel with
  | zero =>
      intro arcs d d2 b h
      simp [ac3Aux] at h
  | succ fuel ih =>
      intro arcs d d2 b h
      cases arcs with
      | nil =>
          rw [ac3Aux] at h
          have hd : d = d2 := congrArg Prod.fst (Option.some.inj h)
          subst hd
          exact fun v => List.Sublist.refl _
      | cons arc rest =>
          obtain ⟨x, y⟩ := arc
          cases hr : revise p d x y with
          | none =>
              rw [ac3Aux_cons_crash hr] at h
              exact absurd h (by simp)
          | some r =>
              obtain ⟨d3, changed⟩ := r
              cases changed with
              | false =>
                  rw [ac3Aux_cons_false hr] at h
                  have hd : d3 = d := revise_unchanged hr
                  subst hd
                  exact ih h
              | true =>
                  cases he : (lookupW d3 x).isEmpty with
                  | true =>
                      rw [ac3Aux_cons_true_empty hr he] at h
                      have hd : d3 = d2 := congrArg Prod.fst (Option.some.inj h)
                      subst hd
                      exact revise_sublist hr
                  | false =>
                      rw [ac3Aux_cons_true_cont hr he] at h
                      intro v
                      exact (ih h v).trans (revise_sublist hr v)

/-! Membership lemmas for the worklist constructions. -/

theorem mem_addArc_of_mem {l : List (Slot × Slot)} {a c : Slot × Slot}
    (h : c ∈ l) : c ∈ addArc l a := by
  unfold addArc
  split
  · exact h
  · exact List.mem_append_left _ h

theorem mem_addArc_self {l : List (Slot × Slot)} {a : Slot × Slot} :
    a ∈ addArc l a := by
  unfold addArc
  split
  · assumption
  · exact List.mem_append_right _ (List.mem_singleton.mpr rfl)

theorem foldl_addArc2_mem_acc {x : Slot} {L : List Slot}
    {acc : List (Slot × Slot)} {c : Slot × Slot} (h : c ∈ acc) :
    c ∈ L.foldl (fun a2 z => addArc (addArc a2 (x, z)) (z, x)) acc := by
  induction L generalizing acc with
  | nil => exact h
  | cons z rest ih => exact ih (mem_addArc_of_mem (mem_addArc_of_mem h))

theorem foldl_addArc2_mem {x : Slot} {L : List Slot} {acc : List (Slot × Slot)}
    {z : Slot} (h : z ∈ L) :
    (x, z) ∈ L.foldl (fun a2 u => addArc (addArc a2 (x, u)) (u, x)) acc ∧
    (z, x) ∈ L.foldl (fun a2 u => addArc (addArc a2 (x, u)) (u, x)) acc := by
  induction L generalizing acc with
  | nil => cases h
  | cons z2 rest ih =>
      rcases List.mem_cons.mp h with h | h
      · subst h
        rw [List.foldl_cons]
        constructor
        · exact foldl_addArc2_mem_acc (mem_addArc_of_mem mem_addArc_self)
        · exact foldl_addArc2_mem_acc mem_addArc_self
      · exact ih h

theorem requeue_mem_of_mem {p : Puzzle} {x : Slot} {rest : List (Slot × Slot)}
    {c : Slot × Slot} (h : c ∈ rest) : c ∈ requeue p x rest :=
  foldl_addArc2_mem_acc h

theorem requeue_mem_fwd {p : Puzzle} {x z : Slot} {rest : List (Slot × Slot)}
    (h : z ∈ neighbors p x) : (x, z) ∈ requeue p x rest :=
  (foldl_addArc2_mem h).1

theorem requeue_mem_bwd {p : Puzzle} {x z : Slot} {rest : List (Slot × Slot)}
    (h : z ∈ neighbors p x) : (z, x) ∈ requeue p x rest :=
  (foldl_addArc2_mem h).2

theorem foldl_addArc1_mem_acc {v : Slot} {L : List Slot}
    {acc : List (Slot × Slot)} {c : Slot × Slot} (h : c ∈ acc) :
    c ∈ L.foldl (fun a2 n => addArc a2 (v, n)) acc := by
  induction L generalizing acc with
  | nil => exact h
  | cons n rest ih => exact ih (mem_addArc_of_mem h)

theorem foldl_addArc1_mem {v : Slot} {L : List Slot} {acc : List (Slot × Slot)}
    {n : Slot} (h : n ∈ L) :
    (v, n) ∈ L.foldl (fun a2 m => addArc a2 (v, m)) acc := by
  induction L generalizing acc with
  | nil => cases h
  | cons m rest ih =>
      rcases List.mem_cons.mp h with h | h
      · subst h
        rw [List.foldl_cons]
        exact foldl_addArc1_mem_acc mem_addArc_self
      · exact ih h

theorem outer_foldl_mem_acc {p : Puzzle} {S : List Slot}
    {acc : List (Slot × Slot)} {c : Slot × Slot} (h : c ∈ acc) :
    c ∈ S.foldl (fun a2 v => (neighbors p v).foldl
      (fun a3 n => addArc a3 (v, n)) a2) acc := by
  induction S generalizing acc with
  | nil => exact h
  | cons v rest ih => exact ih (foldl_addArc1_mem_acc h)

theorem initialArcs_mem {p : Puzzle} {x y : Slot} (hx : x ∈ p.slots)
    (hy : y ∈ neighbors p x) : (x, y) ∈ initialArcs p := by
  unfold initialArcs
  have main : ∀ (S : List Slot) (acc : List (Slot × Slot)), x ∈ S →
      (x, y) ∈ S.foldl (fun a2 v => (neighbors p v).foldl
        (fun a3 n => addArc a3 (v, n)) a2) acc := by
    intro S
    induction S with
    | nil => intro acc h; cases h
    | cons v rest ih =>
        intro acc h
        rcases List.mem_cons.mp h with h | h
        · subst h
          rw [List.foldl_cons]
          exact outer_foldl_mem_acc (foldl_addArc1_mem hy)
        · exact ih _ h
  exact main p.slots [] hx

/-! The arc-consistency fixpoint (C6 machinery). -/

theorem revise_false_arcCons {p : Puzzle} {d : Doms} {x y : Slot}
    (h : revise p d x y = some (d, false)) : ArcCons p d x y := by
  intro i j hov w hw
  rw [revise_eq_of_ov hov] at h
  cases hf : filterSupported i j (lookupW d y) (lookupW d x) with
  | none =>
      rw [hf] at h
      exact absurd h (by simp)
  | some valid =>
      rw [hf] at h
      have h2 : (if valid = lookupW d x then some (d, false)
          else some (setD d x valid, true) : Option (Doms × Bool)) =
          some (d, false) := h
      by_cases hv : valid = lookupW d x
      · subst hv
        have hsupp := filterSupported_mem_support hf w hw
        obtain ⟨wy, hwy, c, hc1, hc2⟩ := anySupport_eq_some_true hsupp
        exact ⟨wy, hwy, c, hc1, hc2⟩
      · rw [if_neg hv] at h2
        have := congrArg Prod.snd (Option.some.inj h2)
        exact absurd this (by simp)

theorem ac3Aux_allCons {p : Puzzle} (hs : symmOK p = true) {fuel : Nat} :
    ∀ {arcs : List (Slot × Slot)} {d d2 : Doms},
      AllCons p d arcs → ac3Aux p fuel arcs d = some (d2, true) →
      ∀ x ∈ p.slots, ∀ y ∈ neighbors p x, ArcCons p d2 x y := by
  induction fuel with
  | zero =>
      intro arcs d d2 _ h
      simp [ac3Aux] at h
  | succ fuel ih =>
      intro arcs d d2 hinv h
      cases arcs with
      | nil =>
          rw [ac3Aux] at h
          have hd : d = d2 := congrArg Prod.fst (Option.some.inj h)
          subst hd
          intro x hx y hy
          rcases hinv x hx y hy with hmem | hc
          · exact absurd hmem (by simp)
          · exact hc
      | cons arc rest =>
          obtain ⟨a, b⟩ := arc
          cases hr : revise p d a b with
          | none =>
              rw [ac3Aux_cons_crash hr] at h
              exact absurd h (by simp)
          | some r =>
              obtain ⟨d3, changed⟩ := r
              cases changed with
              | false =>
                  rw [ac3Aux_cons_false hr] at h
                  have hd : d3 = d := revise_unchanged hr
                  subst hd
                  refine ih ?_ h
                  intro x hx y hy
                  rcases hinv x hx y hy with hmem | hc
                  · rcases List.mem_cons.mp hmem with heq | hmem2
                    · have hxa : x = a := congrArg Prod.fst heq
                      have hyb : y = b := congrArg Prod.snd heq
                      subst hxa
                      subst hyb
                      exact Or.inr (revise_false_arcCons hr)
                    · exact Or.inl hmem2
                  · exact Or.inr hc
              | true =>
                  cases he : (lookupW d3 a).isEmpty with
                  | true =>
                      rw [ac3Aux_cons_true_empty hr he] at h
                      have := congrArg Prod.snd (Option.some.inj h)
                      exact absurd this (by simp)
                  | false =>
                      rw [ac3Aux_cons_true_cont hr he] at h
                      refine ih ?_ h
                      intro x hx y hy
                      by_cases hxa : x = a
                      · subst hxa
                        exact Or.inl (requeue_mem_fwd hy)
                      · by_cases hya : y = a
                        · subst hya
                          exact Or.inl (requeue_mem_bwd (neighbors_symm hs hx hy))
                        · rcases hinv x hx y hy with hmem | hc
                          · rcases List.mem_cons.mp hmem with heq | hmem2
                            · exact absurd (congrArg Prod.fst heq) hxa
                            · exact Or.inl (requeue_mem_of_mem hmem2)
                          · refine Or.inr ?_
                            obtain ⟨i2, j2, valid, hov2, hf2, hne2, hd3⟩ :=
                              revise_changed hr
                            subst hd3
                            intro i j hij w hw
                            rw [lookupW_setD_ne hxa] at hw
                            obtain ⟨w2, hw2, hc2⟩ := hc i j hij w hw
                            rw [lookupW_setD_ne hya]
                            exact ⟨w2, hw2, hc2⟩

theorem ac3_arcCons {p : Puzzle} {d d2 : Doms} (hs : symmOK p = true)
    (h : ac3 p d = some (d2, true)) :
    ∀ x ∈ p.slots, ∀ y ∈ neighbors p x, ArcCons p d2 x y := by
  unfold ac3 at h
  refine ac3Aux_allCons hs ?_ h
  intro x hx y hy
  exact Or.inl (initialArcs_mem hx hy)

/-! Lemmas about node consistency and the initial domains (C7 machinery). -/

theorem lookupW_enforce {d : Doms} {v : Slot} :
    lookupW (enforce_node_consistency d) v =
      (lookupW d v).filter fun w => w.length == v.len := by
  induction d with
  | nil => rfl
  | cons e rest ih =>
      unfold enforce_node_consistency
      simp only [List.map_cons]
      rw [lookupW, lookupW]
      by_cases he : e.1 = v
      · rw [if_pos he, if_pos he, he]
      · rw [if_neg he, if_neg he]
        exact ih

theorem lookupW_initDoms_sublist {p : Puzzle} {v : Slot} :
    (lookupW (initDoms p) v).Sublist p.words := by
  unfold initDoms
  induction p.slots with
  | nil => exact List.nil_sublist _
  | cons u rest ih =>
      simp only [List.map_cons]
      rw [lookupW]
      by_cases hu : u = v
      · rw [if_pos hu]
      · rw [if_neg hu]
        exact ih

theorem mem_enforce_length {d : Doms} {v : Slot} {w : Word}
    (h : w ∈ lookupW (enforce_node_consistency d) v) : w.length = v.len := by
  rw [lookupW_enforce] at h
  have := (List.mem_filter.mp h).2
  exact eq_of_beq this

/-! Lemmas about keys and lengths of assignments. -/

theorem keys_sub_toFinset {p : Puzzle} {a : Assignment}
    (hsub : ∀ e ∈ a, e.1 ∈ p.slots) :
    (keys a).toFinset ⊆ p.slots.toFinset := by
  intro v hv
  rw [List.mem_toFinset] at hv
  obtain ⟨e, he, heq⟩ := List.mem_map.mp hv
  rw [List.mem_toFinset]
  exact heq ▸ hsub e he

theorem assign_length_le {p : Puzzle} {a : Assignment} (hk : NodupKeys a)
    (hsub : ∀ e ∈ a, e.1 ∈ p.slots) : a.length ≤ p.slots.length := by
  have h1 : a.length = (keys a).toFinset.card := by
    rw [List.toFinset_card_of_nodup hk, length_eq_keys_length]
  have h2 : (keys a).toFinset.card ≤ p.slots.toFinset.card :=
    Finset.card_le_card (keys_sub_toFinset hsub)
  have h3 : p.slots.toFinset.card ≤ p.slots.length := List.toFinset_card_le _
  omega

theorem complete_of_keys {p : Puzzle} {a : Assignment} (hnd : p.slots.Nodup)
    (hk : NodupKeys a) (hsub : ∀ e ∈ a, e.1 ∈ p.slots)
    (hlen : p.slots.length = a.length) (hne : ∀ e ∈ a, e.2 ≠ []) :
    assignment_complete p a = true := by
  have hcards : p.slots.toFinset = (keys a).toFinset := by
    refine (Finset.eq_of_subset_of_card_le (keys_sub_toFinset hsub) ?_).symm
    rw [List.toFinset_card_of_nodup hnd, List.toFinset_card_of_nodup hk]
    rw [← length_eq_keys_length, ← hlen]
  unfold assignment_complete
  rw [List.all_eq_true]
  intro v hv
  have hvk : v ∈ keys a := by
    rw [← List.mem_toFinset, ← hcards, List.mem_toFinset]
    exact hv
  have hvs := mem_keys_iff_lookupA.mp hvk
  rcases Option.isSome_iff_exists.mp hvs with ⟨w, hw⟩
  rw [hw]
  have hwne : w ≠ [] := hne (v, w) (lookupA_mem hw)
  cases w with
  | nil => exact absurd rfl hwne
  | cons c cs => rfl

/-! Step lemmas for `tryWords` and `backtrack`. -/

theorem tryWords_cons_crash {p : Puzzle} {recur : Assignment → Option (Assignment × Bool)}
    {v : Slot} {w : Word} {ws : List Word} {a : Assignment}
    (hc : consistent p (a ++ [(v, w)]) = none) :
    tryWords p recur v (w :: ws) a = none := by
  simp [tryWords, hc]

theorem tryWords_cons_false {p : Puzzle} {recur : Assignment → Option (Assignment × Bool)}
    {v : Slot} {w : Word} {ws : List Word} {a : Assignment}
    (hc : consistent p (a ++ [(v, w)]) = some false) :
    tryWords p recur v (w :: ws) a =
      tryWords p recur v ws (eraseKey (a ++ [(v, w)]) v) := by
  simp [tryWords, hc]

theorem tryWords_cons_true_crash {p : Puzzle}
    {recur : Assignment → Option (Assignment × Bool)} {v : Slot} {w : Word}
    {ws : List Word} {a : Assignment}
    (hc : consistent p (a ++ [(v, w)]) = some true)
    (hrec : recur (a ++ [(v, w)]) = none) :
    tryWords p recur v (w :: ws) a = none := by
  simp [tryWords, hc, hrec]

theorem tryWords_cons_true_some {p : Puzzle}
    {recur : Assignment → Option (Assignment × Bool)} {v : Slot} {w : Word}
    {ws : List Word} {a : Assignment} {r : Assignment × Bool}
    (hc : consistent p (a ++ [(v, w)]) = some true)
    (hrec : recur (a ++ [(v, w)]) = some r) :
    tryWords p recur v (w :: ws) a =
      if r.2 && !r.1.isEmpty then some r
      else tryWords p recur v ws (eraseKey r.1 v) := by
  simp [tryWords, hc, hrec]

theorem backtrack_succ_base {p : Puzzle} {d : Doms} {fuel : Nat} {a : Assignment}
    (hlen : p.slots.length = a.length) :
    backtrack p d (fuel + 1) a = some (a, true) := by
  simp [backtrack, hlen]

theorem backtrack_succ_nofind {p : Puzzle} {d : Doms} {fuel : Nat} {a : Assignment}
    (hlen : p.slots.length ≠ a.length)
    (hfind : p.slots.find? (fun v => !hasKey a v) = none) :
    backtrack p d (fuel + 1) a = some (a, false) := by
  simp [backtrack, hlen, hfind]

theorem backtrack_succ_find {p : Puzzle} {d : Doms} {fuel : Nat} {a : Assignment}
    {v : Slot} (hlen : p.slots.length ≠ a.length)
    (hfind : p.slots.find? (fun v => !hasKey a v) = some v) :
    backtrack p d (fuel + 1) a =
      tryWords p (backtrack p d fuel) v (lookupW d v) a := by
  simp [backtrack, hlen, hfind]

/-! Failure restores the assignment, success only grows it (C10 machinery). -/

theorem backtrack_shape {p : Puzzle} {d : Doms} : ∀ {fuel : Nat} {a r : Assignment}
    {b : Bool}, backtrack p d fuel a = some (r, b) →
    (b = false → r = a) ∧ (b = true → a.length ≤ r.length) := by
  intro fuel
  induction fuel with
  | zero =>
      intro a r b h
      simp [backtrack] at h
  | succ fuel ih =>
      intro a r b h
      by_cases hlen : p.slots.length = a.length
      · rw [backtrack_succ_base hlen] at h
        have h1 : a = r := congrArg Prod.fst (Option.some.inj h)
        have h2 : true = b := congrArg Prod.snd (Option.some.inj h)
        subst h1
        subst h2
        exact ⟨fun hc => absurd hc (by simp), fun _ => Nat.le_refl _⟩
      · cases hfind : p.slots.find? (fun v => !hasKey a v) with
        | none =>
            rw [backtrack_succ_nofind hlen hfind] at h
            have h1 : a = r := congrArg Prod.fst (Option.some.inj h)
            have h2 : false = b := congrArg Prod.snd (Option.some.inj h)
            subst h1
            subst h2
            exact ⟨fun _ => rfl, fun hc => absurd hc (by simp)⟩
        | some v =>
            rw [backtrack_succ_find hlen hfind] at h
            have hkey : lookupA a v = none := by
              have h3 := List.find?_some hfind
              simp only [Bool.not_eq_eq_eq_not, Bool.not_true] at h3
              exact hasKey_eq_false.mp h3
            clear hfind hlen
            generalize hws : lookupW d v = ws0 at h
            clear hws
            revert hkey h
            induction ws0 generalizing a with
            | nil =>
                intro hkey h
                rw [tryWords] at h
                have h1 : a = r := congrArg Prod.fst (Option.some.inj h)
                have h2 : false = b := congrArg Prod.snd (Option.some.inj h)
                subst h1
                subst h2
                exact ⟨fun _ => rfl, fun hc => absurd hc (by simp)⟩
            | cons w ws ihw =>
                intro hkey h
                cases hc : consistent p (a ++ [(v, w)]) with
                | none =>
                    rw [tryWords_cons_crash hc] at h
                    exact absurd h (by simp)
                | some cok =>
                    cases cok with
                    | false =>
                        rw [tryWords_cons_false hc,
                          eraseKey_append_self hkey] at h
                        exact ihw hkey h
                    | true =>
                        cases hrec : backtrack p d fuel (a ++ [(v, w)]) with
                        | none =>
                            rw [tryWords_cons_true_crash hc hrec] at h
                            exact absurd h (by simp)
                        | some r2 =>
                            rw [tryWords_cons_true_some hc hrec] at h
                            have hr2 := ih hrec
                            by_cases hgate : r2.2 && !r2.1.isEmpty
                            · rw [if_pos hgate] at h
                              have hb2 : r2.2 = true := by
                                cases hx : r2.2
                                · rw [hx] at hgate
                                  simp at hgate
                                · rfl
                              have h1 : r2.1 = r := congrArg Prod.fst (Option.some.inj h)
                              have h2 : r2.2 = b := congrArg Prod.snd (Option.some.inj h)
                              subst h1
                              subst h2
                              rw [hb2]
                              refine ⟨fun hc2 => absurd hc2 (by simp), fun _ => ?_⟩
                              have h4 := hr2.2 hb2
                              rw [List.length_append] at h4
                              simp at h4
                              omega
                            · rw [if_neg hgate] at h
                              cases hb2 : r2.2 with
                              | false =>
                                  have hrest : r2.1 = a ++ [(v, w)] := hr2.1 hb2
                                  rw [hrest, eraseKey_append_self hkey] at h
                                  exact ihw hkey h
                              | true =>
                                  rw [hb2] at hgate
                                  have hnil : r2.1 = [] := by
                                    cases hx : r2.1 with
                                    | nil => rfl
                                    | cons e rest2 =>
                                        rw [hx] at hgate
                                        simp at hgate
                                  have h4 := hr2.2 hb2
                                  rw [hnil, List.length_append] at h4
                                  simp at h4

theorem nodupKeys_append_single {a : Assignment} {v : Slot} {w : Word}
    (hk : NodupKeys a) (hkey : lookupA a v = none) :
    NodupKeys (a ++ [(v, w)]) := by
  unfold NodupKeys at hk ⊢
  rw [keys_append, List.nodup_append]
  refine ⟨hk, List.nodup_singleton _, ?_⟩
  intro x hx hx2
  have hxv : x = v := by simpa [keys] using hx2
  subst hxv
  have hxk := mem_keys_iff_lookupA.mp hx
  rw [hkey] at hxk
  simp at hxk

theorem mem_append_single {a : Assignment} {v : Slot} {w : Word}
    {e : Slot × Word} (h : e ∈ a ++ [(v, w)]) : e ∈ a ∨ e = (v, w) := by
  rcases List.mem_append.mp h with h | h
  · exact Or.inl h
  · exact Or.inr (List.mem_singleton.mp h)

/-- Any success of `backtrack` from a well-formed consistent start is a
complete, consistent assignment (C4 machinery). -/
theorem backtrack_sound {p : Puzzle} {d : Doms} (hnd : p.slots.Nodup)
    (hdne : ∀ v ∈ p.slots, ∀ w ∈ lookupW d v, w ≠ []) :
    ∀ {fuel : Nat} {a r : Assignment},
      NodupKeys a → (∀ e ∈ a, e.1 ∈ p.slots) → (∀ e ∈ a, e.2 ≠ []) →
      consistent p a = some true →
      backtrack p d fuel a = some (r, true) →
      assignment_complete p r = true ∧ consistent p r = some true := by
  intro fuel
  induction fuel with
  | zero =>
      intro a r _ _ _ _ h
      simp [backtrack] at h
  | succ fuel ih =>
      intro a r hk hsub hne hcons h
      by_cases hlen : p.slots.length = a.length
      · rw [backtrack_succ_base hlen] at h
        have h1 : a = r := congrArg Prod.fst (Option.some.inj h)
        subst h1
        exact ⟨complete_of_keys hnd hk hsub hlen hne, hcons⟩
      · cases hfind : p.slots.find? (fun v => !hasKey a v) with
        | none =>
            rw [backtrack_succ_nofind hlen hfind] at h
            have h2 := congrArg Prod.snd (Option.some.inj h)
            exact absurd h2 (by simp)
        | some v =>
            rw [backtrack_succ_find hlen hfind] at h
            have hkey : lookupA a v = none := by
              have h3 := List.find?_some hfind
              simp only [Bool.not_eq_eq_eq_not, Bool.not_true] at h3
              exact hasKey_eq_false.mp h3
            have hvmem : v ∈ p.slots := List.mem_of_find?_eq_some hfind
            clear hfind hlen
            generalize hg : lookupW d v = ws0 at h
            have hws0 : ∀ w ∈ ws0, w ∈ lookupW d v := fun w hw => hg ▸ hw
            clear hg
            revert hws0 hk hsub hne hcons hkey h
            induction ws0 generalizing a with
            | nil =>
                intro hk hsub hne hcons hkey h hws0
                rw [tryWords] at h
                have h2 := congrArg Prod.snd (Option.some.inj h)
                exact absurd h2 (by simp)
            | cons w ws ihw =>
                intro hk hsub hne hcons hkey h hws0
                have hwmem : w ∈ lookupW d v := hws0 w (List.mem_cons_self _ _)
                have hws0' : ∀ w2 ∈ ws, w2 ∈ lookupW d v :=
                  fun w2 hw2 => hws0 w2 (List.mem_cons_of_mem _ hw2)
                have hk1 : NodupKeys (a ++ [(v, w)]) :=
                  nodupKeys_append_single hk hkey
                have hsub1 : ∀ e ∈ a ++ [(v, w)], e.1 ∈ p.slots := by
                  intro e he
                  rcases mem_append_single he with he | he
                  · exact hsub e he
                  · rw [he]
                    exact hvmem
                have hne1 : ∀ e ∈ a ++ [(v, w)], e.2 ≠ [] := by
                  intro e he
                  rcases mem_append_single he with he | he
                  · exact hne e he
                  · rw [he]
                    exact hdne v hvmem w hwmem
                cases hc : consistent p (a ++ [(v, w)]) with
                | none =>
                    rw [tryWords_cons_crash hc] at h
                    exact absurd h (by simp)
                | some cok =>
                    cases cok with
                    | false =>
                        rw [tryWords_cons_false hc,
                          eraseKey_append_self hkey] at h
                        exact ihw hk hsub hne hcons hkey h hws0'
                    | true =>
                        cases hrec : backtrack p d fuel (a ++ [(v, w)]) with
                        | none =>
                            rw [tryWords_cons_true_crash hc hrec] at h
                            exact absurd h (by simp)
                        | some r2 =>
                            rw [tryWords_cons_true_some hc hrec] at h
                            by_cases hgate : r2.2 && !r2.1.isEmpty
                            · rw [if_pos hgate] at h
                              have hb2 : r2.2 = true := by
                                cases hx : r2.2
                                · rw [hx] at hgate
                                  simp at hgate
                                · rfl
                              have h1 : r2.1 = r := congrArg Prod.fst (Option.some.inj h)
                              have hrec2 : backtrack p d fuel (a ++ [(v, w)]) =
                                  some (r2.1, true) := by
                                rw [← hb2]
                                exact hrec
                              rw [← h1]
                              exact ih hk1 hsub1 hne1 hc hrec2
                            · rw [if_neg hgate] at h
                              cases hb2 : r2.2 with
                              | false =>
                                  have hrest : r2.1 = a ++ [(v, w)] :=
                                    (backtrack_shape hrec).1 hb2
                                  rw [hrest, eraseKey_append_self hkey] at h
                                  exact ihw hk hsub hne hcons hkey h hws0'
                              | true =>
                                  rw [hb2] at hgate
                                  have hnil : r2.1 = [] := by
                                    cases hx : r2.1 with
                                    | nil => rfl
                                    | cons e rest2 =>
                                        rw [hx] at hgate
                                        simp at hgate
                                  have h4 := (backtrack_shape hrec).2 hb2
                                  rw [hnil, List.length_append] at h4
                                  simp at h4

/-! No IndexError is raised while all words have their slots' lengths and the
overlap offsets are in range (C5 machinery). -/

theorem charAgree_isSome {w nw : Word} {i j : Nat} {c c2 : Char}
    (hc : w.get? i = some c) (hc2 : nw.get? j = some c2) :
    charAgree w i nw j = some (decide (c = c2)) := by
  unfold charAgree
  rw [hc, hc2]
  rfl

theorem consistNbrs_no_crash {p : Puzzle} {a : Assignment} {w : Word} {v : Slot}
    (hb : boundsOK p = true) (hwlen : w.length = v.len)
    (hlen : ∀ e ∈ a, e.2.length = e.1.len) :
    ∀ L, consistNbrs p a w v L ≠ none := by
  intro L
  induction L with
  | nil => simp [consistNbrs]
  | cons n rest ih =>
      cases hn : lookupA a n with
      | none =>
          rw [consistNbrs_cons_skip hn]
          exact ih
      | some nw =>
          rcases eq_or_ne nw [] with hnil | hnnil
          · subst hnil
            rw [consistNbrs_cons_empty hn]
            exact ih
          by_cases hw : w = nw
          · rw [consistNbrs_cons_dup hn hnnil hw]
            simp
          cases hov : p.overlaps v n with
          | none =>
              rw [consistNbrs_cons_noov hn hnnil hw hov]
              exact ih
          | some ij =>
              obtain ⟨i, j⟩ := ij
              obtain ⟨hi, hj⟩ := boundsOK_overlaps hb hov
              have hnwlen : nw.length = n.len := hlen (n, nw) (lookupA_mem hn)
              have hci : i < w.length := by omega
              have hcj : j < nw.length := by omega
              have heq : consistNbrs p a w v (n :: rest) =
                  if decide (w.get ⟨i, hci⟩ = nw.get ⟨j, hcj⟩) = true
                  then consistNbrs p a w v rest else some false := by
                rw [consistNbrs_cons_ov hn hnnil hw hov,
                  charAgree_isSome (List.get?_eq_get hci) (List.get?_eq_get hcj)]
              rw [heq]
              by_cases he : w.get ⟨i, hci⟩ = nw.get ⟨j, hcj⟩
              · rw [if_pos (decide_eq_true he)]
                exact ih
              · rw [if_neg (fun hcc => he (of_decide_eq_true hcc))]
                simp

theorem consistent_no_crash {p : Puzzle} {a : Assignment}
    (hb : boundsOK p = true) (hlen : ∀ e ∈ a, e.2.length = e.1.len) :
    consistent p a ≠ none := by
  unfold consistent
  suffices h : ∀ L, consistVars p a L ≠ none from h _
  intro L
  induction L with
  | nil => simp [consistVars]
  | cons v rest ih =>
      cases hv : lookupA a v with
      | none =>
          rw [consistVars_cons_skip hv]
          exact ih
      | some w =>
          rcases eq_or_ne w [] with hnil | hwnil
          · subst hnil
            rw [consistVars_cons_empty hv]
            exact ih
          by_cases hwl : w.length = v.len
          · rw [consistVars_cons_checked hv hwnil hwl]
            cases hnb : consistNbrs p a w v (neighbors p v) with
            | none => exact absurd hnb (consistNbrs_no_crash hb hwl hlen _)
            | some ok =>
                cases ok with
                | true => exact ih
                | false => simp
          · rw [consistVars_cons_badlen hv hwnil hwl]
            simp

theorem backtrack_no_crash {p : Puzzle} {d : Doms} (hb : boundsOK p = true)
    (hdsl : ∀ v ∈ p.slots, ∀ w ∈ lookupW d v, w.length = v.len) :
    ∀ {fuel : Nat} {a : Assignment},
      NodupKeys a → (∀ e ∈ a, e.1 ∈ p.slots) →
      (∀ e ∈ a, e.2.length = e.1.len) →
      p.slots.length < fuel + a.length →
      backtrack p d fuel a ≠ none := by
  intro fuel
  induction fuel with
  | zero =>
      intro a hk hsub hlen hfuel
      have := assign_length_le hk hsub
      omega
  | succ fuel ih =>
      intro a hk hsub hlen hfuel
      by_cases hl : p.slots.length = a.length
      · rw [backtrack_succ_base hl]
        simp
      · cases hfind : p.slots.find? (fun v => !hasKey a v) with
        | none =>
            rw [backtrack_succ_nofind hl hfind]
            simp
        | some v =>
            rw [backtrack_succ_find hl hfind]
            have hkey : lookupA a v = none := by
              have h3 := List.find?_some hfind
              simp only [Bool.not_eq_eq_eq_not, Bool.not_true] at h3
              exact hasKey_eq_false.mp h3
            have hvmem : v ∈ p.slots := List.mem_of_find?_eq_some hfind
            clear hfind hl
            generalize hg : lookupW d v = ws0
            have hws0 : ∀ w ∈ ws0, w ∈ lookupW d v := fun w hw => hg ▸ hw
            clear hg
            revert hk hsub hlen hfuel hkey hws0
            induction ws0 generalizing a with
            | nil =>
                intro hk hsub hlen hfuel hkey hws0
                rw [tryWords]
                simp
            | cons w ws ihw =>
                intro hk hsub hlen hfuel hkey hws0
                have hwmem : w ∈ lookupW d v := hws0 w (List.mem_cons_self _ _)
                have hws0' : ∀ w2 ∈ ws, w2 ∈ lookupW d v :=
                  fun w2 hw2 => hws0 w2 (List.mem_cons_of_mem _ hw2)
                have hk1 : NodupKeys (a ++ [(v, w)]) :=
                  nodupKeys_append_single hk hkey
                have hsub1 : ∀ e ∈ a ++ [(v, w)], e.1 ∈ p.slots := by
                  intro e he
                  rcases mem_append_single he with he | he
                  · exact hsub e he
                  · rw [he]
                    exact hvmem
                have hlen1 : ∀ e ∈ a ++ [(v, w)], e.2.length = e.1.len := by
                  intro e he
                  rcases mem_append_single he with he | he
                  · exact hlen e he
                  · rw [he]
                    exact hdsl v hvmem w hwmem
                cases hc : consistent p (a ++ [(v, w)]) with
                | none => exact absurd hc (consistent_no_crash hb hlen1)
                | some cok =>
                    cases cok with
                    | false =>
                        rw [tryWords_cons_false hc, eraseKey_append_self hkey]
                        exact ihw hk hsub hlen hfuel hkey hws0'
                    | true =>
                        cases hrec : backtrack p d fuel (a ++ [(v, w)]) with
                        | none =>
                            have hfuel1 : p.slots.length <
                                fuel + (a ++ [(v, w)]).length := by
                              rw [List.length_append]
                              simp only [List.length_singleton]
                              omega
                            exact absurd hrec (ih hk1 hsub1 hlen1 hfuel1)
                        | some r2 =>
                            rw [tryWords_cons_true_some hc hrec]
                            by_cases hgate : r2.2 && !r2.1.isEmpty
                            · rw [if_pos hgate]
                              simp
                            · rw [if_neg hgate]
                              cases hb2 : r2.2 with
                              | false =>
                                  have hrest : r2.1 = a ++ [(v, w)] :=
                                    (backtrack_shape hrec).1 hb2
                                  rw [hrest, eraseKey_append_self hkey]
                                  exact ihw hk hsub hlen hfuel hkey hws0'
                              | true =>
                                  rw [hb2] at hgate
                                  have hnil : r2.1 = [] := by
                                    cases hx : r2.1 with
                                    | nil => rfl
                                    | cons e rest2 =>
                                        rw [hx] at hgate
                                        simp at hgate
                                  have h4 := (backtrack_shape hrec).2 hb2
                                  rw [hnil, List.length_append] at h4
                                  simp at h4

/-! Completeness of the search (C5 machinery). -/

theorem lookupA_mkAssign {p : Puzzle} {s : Slot → Word} {v : Slot}
    (hv : v ∈ p.slots) : lookupA (mkAssign p s) v = some (s v) := by
  unfold mkAssign
  have main : ∀ L : List Slot, v ∈ L →
      lookupA (L.map fun u => (u, s u)) v = some (s v) := by
    intro L
    induction L with
    | nil => intro hv2; cases hv2
    | cons u rest ih =>
        intro hv2
        simp only [List.map_cons]
        rw [lookupA]
        by_cases hu : u = v
        · rw [if_pos hu, hu]
        · rw [if_neg hu]
          rcases List.mem_cons.mp hv2 with hv3 | hv3
          · exact absurd hv3.symm hu
          · exact ih hv3
  exact main p.slots hv

theorem exists_unassigned {p : Puzzle} {a : Assignment} (hnd : p.slots.Nodup)
    (hk : NodupKeys a) (hsub : ∀ e ∈ a, e.1 ∈ p.slots)
    (hlt : a.length < p.slots.length) :
    ∃ v, p.slots.find? (fun v => !hasKey a v) = some v := by
  have hex : ∃ x ∈ p.slots, (!hasKey a x) = true := by
    by_contra hno
    push_neg at hno
    have hsubset : p.slots.toFinset ⊆ (keys a).toFinset := by
      intro x hx
      rw [List.mem_toFinset] at hx ⊢
      have h1 := hno x hx
      have hk2 : (lookupA a x).isSome = true := by
        cases hhh : hasKey a x
        · rw [hhh] at h1
          simp at h1
        · exact hhh
      exact mem_keys_iff_lookupA.mpr hk2
    have h1 : p.slots.toFinset.card = p.slots.length :=
      List.toFinset_card_of_nodup hnd
    have h2 := Finset.card_le_card hsubset
    have h3 : (keys a).toFinset.card = a.length := by
      rw [List.toFinset_card_of_nodup hk, ← length_eq_keys_length]
    omega
  have h4 := List.find?_isSome.mpr hex
  exact Option.isSome_iff_exists.mp h4

theorem consistent_of_sub {p : Puzzle} {a : Assignment} {s : Slot → Word}
    (hsol : consistentHolds p (mkAssign p s))
    (hagr : ∀ e ∈ a, e.2 = s e.1) (hsub : ∀ e ∈ a, e.1 ∈ p.slots) :
    consistentHolds p a := by
  intro v hv w hw hwne
  have hmem := lookupA_mem hw
  have hwv : w = s v := hagr (v, w) hmem
  subst hwv
  have hvs := hsol v hv (s v) (lookupA_mkAssign hv) hwne
  refine ⟨hvs.1, ?_⟩
  intro n hn nw hnw hnwne
  have hnmem := lookupA_mem hnw
  have hnw2 : nw = s n := hagr (n, nw) hnmem
  subst hnw2
  have hns : n ∈ p.slots := (mem_neighbors.mp hn).1
  have hnbr := hvs.2 n hn (s n) (lookupA_mkAssign hns) hnwne
  exact ⟨hnbr.1, fun i j hij => hnbr.2 i j hij⟩

/-- The search is complete: whenever a total choice of domain words is a
complete consistent solution extending the current assignment, `backtrack`
succeeds (C5 machinery). -/
theorem backtrack_complete {p : Puzzle} {d : Doms} (hnd : p.slots.Nodup)
    (hb : boundsOK p = true)
    (hdsl : ∀ v ∈ p.slots, ∀ w ∈ lookupW d v, w.length = v.len)
    (s : Slot → Word) (hsmem : ∀ v ∈ p.slots, s v ∈ lookupW d v)
    (hsne : ∀ v ∈ p.slots, s v ≠ [])
    (hsol : consistentHolds p (mkAssign p s)) :
    ∀ {fuel : Nat} {a : Assignment},
      NodupKeys a → (∀ e ∈ a, e.1 ∈ p.slots) → (∀ e ∈ a, e.2 = s e.1) →
      p.slots.length < fuel + a.length →
      ∃ r, backtrack p d fuel a = some (r, true) := by
  intro fuel
  induction fuel with
  | zero =>
      intro a hk hsub hagr hfuel
      have := assign_length_le hk hsub
      omega
  | succ fuel ih =>
      intro a hk hsub hagr hfuel
      by_cases hl : p.slots.length = a.length
      · exact ⟨a, backtrack_succ_base hl⟩
      · have hlt : a.length < p.slots.length :=
          Nat.lt_of_le_of_ne (assign_length_le hk hsub) (fun hh => hl hh.symm)
        obtain ⟨v, hfind⟩ := exists_unassigned hnd hk hsub hlt
        rw [backtrack_succ_find hl hfind]
        have hkey : lookupA a v = none := by
          have h3 := List.find?_some hfind
          simp only [Bool.not_eq_eq_eq_not, Bool.not_true] at h3
          exact hasKey_eq_false.mp h3
        have hvmem : v ∈ p.slots := List.mem_of_find?_eq_some hfind
        have hlena : ∀ e ∈ a, e.2.length = e.1.len := by
          intro e he
          rw [hagr e he]
          exact (hsol e.1 (hsub e he) (s e.1)
            (lookupA_mkAssign (hsub e he)) (hsne e.1 (hsub e he))).1
        have hsv : s v ∈ lookupW d v := hsmem v hvmem
        clear hfind hl hlt
        generalize hg : lookupW d v = ws0 at hsv ⊢
        have hws0 : ∀ w ∈ ws0, w ∈ lookupW d v := fun w hw => hg ▸ hw
        clear hg
        revert hk hsub hagr hfuel hkey hlena hsv hws0
        induction ws0 generalizing a with
        | nil =>
            intro hk hsub hagr hfuel hkey hlena hsv hws0
            exact absurd hsv (by simp)
        | cons w ws ihw =>
            intro hk hsub hagr hfuel hkey hlena hsv hws0
            have hwmem : w ∈ lookupW d v := hws0 w (List.mem_cons_self _ _)
            have hws0' : ∀ w2 ∈ ws, w2 ∈ lookupW d v :=
              fun w2 hw2 => hws0 w2 (List.mem_cons_of_mem _ hw2)
            have hk1 : NodupKeys (a ++ [(v, w)]) :=
              nodupKeys_append_single hk hkey
            have hsub1 : ∀ e ∈ a ++ [(v, w)], e.1 ∈ p.slots := by
              intro e he
              rcases mem_append_single he with he | he
              · exact hsub e he
              · rw [he]
                exact hvmem
            have hlen1 : ∀ e ∈ a ++ [(v, w)], e.2.length = e.1.len := by
              intro e he
              rcases mem_append_single he with he | he
              · exact hlena e he
              · rw [he]
                exact hdsl v hvmem w hwmem
            have hfuel1 : p.slots.length < fuel + (a ++ [(v, w)]).length := by
              rw [List.length_append]
              simp only [List.length_singleton]
              omega
            cases hc : consistent p (a ++ [(v, w)]) with
            | none => exact absurd hc (consistent_no_crash hb hlen1)
            | some cok =>
                cases cok with
                | false =>
                    by_cases hwsv : w = s v
                    · exfalso
                      have hct : consistent p (a ++ [(v, w)]) = some true := by
                        apply consistent_eq_some_true.mpr
                        refine consistent_of_sub hsol ?_ hsub1
                        intro e he
                        rcases mem_append_single he with he | he
                        · exact hagr e he
                        · rw [he]
                          exact hwsv
                      rw [hc] at hct
                      exact absurd (Option.some.inj hct) (by simp)
                    · rw [tryWords_cons_false hc, eraseKey_append_self hkey]
                      have hsv2 : s v ∈ ws := by
                        rcases List.mem_cons.mp hsv with hh | hh
                        · exact absurd hh.symm hwsv
                        · exact hh
                      exact ihw hk hsub hagr hfuel hkey hlena hsv2 hws0'
                | true =>
                    cases hrec : backtrack p d fuel (a ++ [(v, w)]) with
                    | none =>
                        exact absurd hrec
                          (backtrack_no_crash hb hdsl hk1 hsub1 hlen1 hfuel1)
                    | some r2 =>
                        rw [tryWords_cons_true_some hc hrec]
                        cases hb2 : r2.2 with
                        | true =>
                            have hlen2 := (backtrack_shape hrec).2 hb2
                            have hne2 : r2.1.isEmpty = false := by
                              cases hx : r2.1 with
                              | nil =>
                                  rw [hx, List.length_append] at hlen2
                                  simp at hlen2
                              | cons e rest2 => rfl
                            have hgate : (true && !r2.1.isEmpty) = true := by
                              rw [hne2]
                              rfl
                            rw [if_pos hgate]
                            refine ⟨r2.1, ?_⟩
                            rw [← hb2]
                        | false =>
                            by_cases hwsv : w = s v
                            · exfalso
                              have hagr1 : ∀ e ∈ a ++ [(v, w)], e.2 = s e.1 := by
                                intro e he
                                rcases mem_append_single he with he | he
                                · exact hagr e he
                                · rw [he]
                                  exact hwsv
                              obtain ⟨r3, hr3⟩ := ih hk1 hsub1 hagr1 hfuel1
                              rw [hrec] at hr3
                              have := congrArg Prod.snd (Option.some.inj hr3)
                              rw [hb2] at this
                              exact absurd this.symm (by simp)
                            · have hrest : r2.1 = a ++ [(v, w)] :=
                                (backtrack_shape hrec).1 hb2
                              have hng : ¬((false && !r2.1.isEmpty) = true) := by
                                simp
                              rw [if_neg hng, hrest, eraseKey_append_self hkey]
                              have hsv2 : s v ∈ ws := by
                                rcases List.mem_cons.mp hsv with hh | hh
                                · exact absurd hh.symm hwsv
                                · exact hh
                              exact ihw hk hsub hagr hfuel hkey hlena hsv2 hws0'

/-! The code's `backtrack` coincides with the spec-shaped search that picks
the first unassigned slot in order and tries words in domain order
(C2 machinery). -/

theorem complete_lookup {p : Puzzle} {a : Assignment} {v : Slot}
    (hcomp : assignment_complete p a = true) (hv : v ∈ p.slots) :
    ∃ w, lookupA a v = some w ∧ w ≠ [] := by
  have h1 := List.all_eq_true.mp hcomp v hv
  cases hlx : lookupA a v with
  | none =>
      rw [hlx] at h1
      exact absurd h1 (by simp)
  | some w =>
      rw [hlx] at h1
      have h2 : (!w.isEmpty) = true := h1
      refine ⟨w, rfl, ?_⟩
      intro hc
      subst hc
      simp at h2

theorem len_of_complete {p : Puzzle} {a : Assignment} (hnd : p.slots.Nodup)
    (hk : NodupKeys a) (hsub : ∀ e ∈ a, e.1 ∈ p.slots)
    (hcomp : assignment_complete p a = true) : p.slots.length = a.length := by
  have hsubset : p.slots.toFinset ⊆ (keys a).toFinset := by
    intro x hx
    rw [List.mem_toFinset] at hx ⊢
    obtain ⟨w, hw, _⟩ := complete_lookup hcomp hx
    exact mem_keys_iff_lookupA.mpr (by rw [hw]; rfl)
  have h1 : p.slots.toFinset.card = p.slots.length :=
    List.toFinset_card_of_nodup hnd
  have h2 := Finset.card_le_card hsubset
  have h3 : (keys a).toFinset.card = a.length := by
    rw [List.toFinset_card_of_nodup hk, ← length_eq_keys_length]
  have h4 := assign_length_le hk hsub
  omega

theorem specTry_cons_crash {p : Puzzle}
    {recur : Assignment → Option (Option Assignment)} {v : Slot} {w : Word}
    {ws : List Word} {a : Assignment}
    (hc : consistent p (a ++ [(v, w)]) = none) :
    specTry p recur v (w :: ws) a = none := by
  simp [specTry, hc]

theorem specTry_cons_false {p : Puzzle}
    {recur : Assignment → Option (Option Assignment)} {v : Slot} {w : Word}
    {ws : List Word} {a : Assignment}
    (hc : consistent p (a ++ [(v, w)]) = some false) :
    specTry p recur v (w :: ws) a = specTry p recur v ws a := by
  simp [specTry, hc]

theorem specTry_cons_true_crash {p : Puzzle}
    {recur : Assignment → Option (Option Assignment)} {v : Slot} {w : Word}
    {ws : List Word} {a : Assignment}
    (hc : consistent p (a ++ [(v, w)]) = some true)
    (hrec : recur (a ++ [(v, w)]) = none) :
    specTry p recur v (w :: ws) a = none := by
  simp [specTry, hc, hrec]

theorem specTry_cons_true_some {p : Puzzle}
    {recur : Assignment → Option (Option Assignment)} {v : Slot} {w : Word}
    {ws : List Word} {a r : Assignment}
    (hc : consistent p (a ++ [(v, w)]) = some true)
    (hrec : recur (a ++ [(v, w)]) = some (some r)) :
    specTry p recur v (w :: ws) a = some (some r) := by
  simp [specTry, hc, hrec]

theorem specTry_cons_true_none {p : Puzzle}
    {recur : Assignment → Option (Option Assignment)} {v : Slot} {w : Word}
    {ws : List Word} {a : Assignment}
    (hc : consistent p (a ++ [(v, w)]) = some true)
    (hrec : recur (a ++ [(v, w)]) = some none) :
    specTry p recur v (w :: ws) a = specTry p recur v ws a := by
  simp [specTry, hc, hrec]

theorem firstOrder_base {p : Puzzle} {d : Doms} {fuel : Nat} {a : Assignment}
    (hcomp : assignment_complete p a = true) :
    backtrackFirstOrder p d (fuel + 1) a = some (some a) := by
  simp [backtrackFirstOrder, hcomp]

theorem firstOrder_nofind {p : Puzzle} {d : Doms} {fuel : Nat}
    {a : Assignment} (hcomp : assignment_complete p a = false)
    (hfind : p.slots.find? (fun v => !hasKey a v) = none) :
    backtrackFirstOrder p d (fuel + 1) a = some none := by
  simp [backtrackFirstOrder, hcomp, hfind]

theorem firstOrder_find {p : Puzzle} {d : Doms} {fuel : Nat} {a : Assignment}
    {v : Slot} (hcomp : assignment_complete p a = false)
    (hfind : p.slots.find? (fun v => !hasKey a v) = some v) :
    backtrackFirstOrder p d (fuel + 1) a =
      specTry p (backtrackFirstOrder p d fuel) v (lookupW d v) a := by
  simp [backtrackFirstOrder, hcomp, hfind]

theorem backtrack_eq_firstOrder {p : Puzzle} {d : Doms} (hnd : p.slots.Nodup)
    (hdne : ∀ v ∈ p.slots, ∀ w ∈ lookupW d v, w ≠ []) :
    ∀ {fuel : Nat} {a : Assignment},
      NodupKeys a → (∀ e ∈ a, e.1 ∈ p.slots) → (∀ e ∈ a, e.2 ≠ []) →
      (backtrack p d fuel a).map resultOf = backtrackFirstOrder p d fuel a := by
  intro fuel
  induction fuel with
  | zero => intro a _ _ _; rfl
  | succ fuel ih =>
      intro a hk hsub hne
      by_cases hl : p.slots.length = a.length
      · rw [backtrack_succ_base hl,
          firstOrder_base (complete_of_keys hnd hk hsub hl hne)]
        rfl
      · have hcomp : assignment_complete p a = false := by
          cases hx : assignment_complete p a
          · rfl
          · exact absurd (len_of_complete hnd hk hsub hx) hl
        cases hfind : p.slots.find? (fun v => !hasKey a v) with
        | none =>
            rw [backtrack_succ_nofind hl hfind, firstOrder_nofind hcomp hfind]
            rfl
        | some v =>
            rw [backtrack_succ_find hl hfind, firstOrder_find hcomp hfind]
            have hkey : lookupA a v = none := by
              have h3 := List.find?_some hfind
              simp only [Bool.not_eq_eq_eq_not, Bool.not_true] at h3
              exact hasKey_eq_false.mp h3
            have hvmem : v ∈ p.slots := List.mem_of_find?_eq_some hfind
            clear hfind hl hcomp
            generalize hg : lookupW d v = ws0
            have hws0 : ∀ w ∈ ws0, w ∈ lookupW d v := fun w hw => hg ▸ hw
            clear hg
            revert hk hsub hne hkey hws0
            induction ws0 generalizing a with
            | nil =>
                intro hk hsub hne hkey hws0
                rw [tryWords, specTry]
                rfl
            | cons w ws ihw =>
                intro hk hsub hne hkey hws0
                have hwmem : w ∈ lookupW d v := hws0 w (List.mem_cons_self _ _)
                have hws0' : ∀ w2 ∈ ws, w2 ∈ lookupW d v :=
                  fun w2 hw2 => hws0 w2 (List.mem_cons_of_mem _ hw2)
                have hk1 : NodupKeys (a ++ [(v, w)]) :=
                  nodupKeys_append_single hk hkey
                have hsub1 : ∀ e ∈ a ++ [(v, w)], e.1 ∈ p.slots := by
                  intro e he
                  rcases mem_append_single he with he | he
                  · exact hsub e he
                  · rw [he]
                    exact hvmem
                have hne1 : ∀ e ∈ a ++ [(v, w)], e.2 ≠ [] := by
                  intro e he
                  rcases mem_append_single he with he | he
                  · exact hne e he
                  · rw [he]
                    exact hdne v hvmem w hwmem
                cases hc : consistent p (a ++ [(v, w)]) with
                | none =>
                    rw [tryWords_cons_crash hc, specTry_cons_crash hc]
                    rfl
                | some cok =>
                    cases cok with
                    | false =>
                        rw [tryWords_cons_false hc, specTry_cons_false hc,
                          eraseKey_append_self hkey]
                        exact ihw hk hsub hne hkey hws0'
                    | true =>
                        cases hrec : backtrack p d fuel (a ++ [(v, w)]) with
                        | none =>
                            have hfo : backtrackFirstOrder p d fuel
                                (a ++ [(v, w)]) = none := by
                              rw [← ih hk1 hsub1 hne1, hrec]
                              rfl
                            rw [tryWords_cons_true_crash hc hrec,
                              specTry_cons_true_crash hc hfo]
                            rfl
                        | some r2 =>
                            cases hb2 : r2.2 with
                            | true =>
                                have hlen2 := (backtrack_shape hrec).2 hb2
                                have hne2 : r2.1.isEmpty = false := by
                                  cases hx : r2.1 with
                                  | nil =>
                                      rw [hx, List.length_append] at hlen2
                                      simp at hlen2
                                  | cons e rest2 => rfl
                                have hro : resultOf r2 = some r2.1 := by
                                  simp [resultOf, hb2]
                                have hfo : backtrackFirstOrder p d fuel
                                    (a ++ [(v, w)]) = some (some r2.1) := by
                                  rw [← ih hk1 hsub1 hne1, hrec]
                                  simp [hro]
                                have hgate : (r2.2 && !r2.1.isEmpty) = true := by
                                  rw [hb2, hne2]
                                  rfl
                                rw [tryWords_cons_true_some hc hrec,
                                  specTry_cons_true_some hc hfo, if_pos hgate]
                                simp [hro]
                            | false =>
                                have hro : resultOf r2 = none := by
                                  simp [resultOf, hb2]
                                have hfo : backtrackFirstOrder p d fuel
                                    (a ++ [(v, w)]) = some none := by
                                  rw [← ih hk1 hsub1 hne1, hrec]
                                  simp [hro]
                                have hrest : r2.1 = a ++ [(v, w)] :=
                                  (backtrack_shape hrec).1 hb2
                                have hng : ¬((r2.2 && !r2.1.isEmpty) = true) := by
                                  rw [hb2]
                                  simp
                                rw [tryWords_cons_true_some hc hrec,
                                  specTry_cons_true_none hc hfo, if_neg hng,
                                  hrest, eraseKey_append_self hkey]
                                exact ihw hk hsub hne hkey hws0'

/-! `order_domain_values` returns the domain sorted by elimination count
(C9 machinery). -/

theorem mapM_counts {p : Puzzle} {d : Doms} {a : Assignment} {v : Slot} :
    ∀ {ws : List Word} {pairs : List (Word × Nat)},
      ws.mapM (fun w => do
        let c ← elimCount p d a v w
        pure (w, c)) = some pairs →
      pairs.map Prod.fst = ws ∧ ∀ e ∈ pairs, elimCount p d a v e.1 = some e.2 := by
  intro ws
  induction ws with
  | nil =>
      intro pairs h
      rw [List.mapM_nil] at h
      cases Option.some.inj h
      exact ⟨rfl, by intro e he; exact absurd he (by simp)⟩
  | cons w rest ih =>
      intro pairs h
      rw [List.mapM_cons] at h
      cases hc : elimCount p d a v w with
      | none =>
          rw [hc] at h
          exact absurd h (by simp)
      | some c =>
          rw [hc] at h
          cases hrest : rest.mapM (fun w => do
              let c ← elimCount p d a v w
              pure (w, c)) with
          | none =>
              rw [hrest] at h
              exact absurd h (by simp)
          | some tailPairs =>
              rw [hrest] at h
              have h2 : (w, c) :: tailPairs = pairs := by
                have h3 : (some ((w, c) :: tailPairs) : Option (List (Word × Nat))) =
                    some pairs := h
                exact Option.some.inj h3
              obtain ⟨ih1, ih2⟩ := ih hrest
              subst h2
              constructor
              · simp [ih1]
              · intro e he
                rcases List.mem_cons.mp he with he | he
                · rw [he]
                  exact hc
                · exact ih2 e he

theorem order_domain_values_spec {p : Puzzle} {d : Doms} {v : Slot}
    {a : Assignment} {l : List Word}
    (h : order_domain_values p d v a = some l) :
    l.Perm (lookupW d v) ∧
    l.Pairwise (fun w1 w2 => ∀ c1 c2, elimCount p d a v w1 = some c1 →
      elimCount p d a v w2 = some c2 → c1 ≤ c2) := by
  unfold order_domain_values at h
  cases hm : (lookupW d v).mapM (fun w => do
      let c ← elimCount p d a v w
      pure (w, c)) with
  | none =>
      rw [hm] at h
      exact absurd h (by simp)
  | some pairs =>
      rw [hm] at h
      have hl : (List.insertionSort (fun e e2 => e.2 ≤ e2.2) pairs).map
          Prod.fst = l := by
        have h3 : (some ((List.insertionSort (fun e e2 => e.2 ≤ e2.2) pairs).map
            Prod.fst) : Option (List Word)) = some l := h
        exact Option.some.inj h3
      obtain ⟨hm1, hm2⟩ := mapM_counts hm
      subst hl
      have hperm : (List.insertionSort
          (fun (e e2 : Word × Nat) => e.2 ≤ e2.2) pairs).Perm pairs :=
        List.perm_insertionSort _ pairs
      constructor
      · have hx := hperm.map Prod.fst
        rw [hm1] at hx
        exact hx
      · have hsorted : (List.insertionSort
            (fun (e e2 : Word × Nat) => e.2 ≤ e2.2) pairs).Pairwise
            (fun e e2 => e.2 ≤ e2.2) := by
          letI : IsTotal (Word × Nat) (fun e e2 => e.2 ≤ e2.2) :=
            ⟨fun e e2 => Nat.le_total e.2 e2.2⟩
          letI : IsTrans (Word × Nat) (fun e e2 => e.2 ≤ e2.2) :=
            ⟨fun e e2 e3 h1 h2 => Nat.le_trans h1 h2⟩
          exact List.sorted_insertionSort _ pairs
        rw [List.pairwise_map]
        refine List.Pairwise.imp_of_mem ?_ hsorted
        intro e e2 he he2 hle c1 c2 hc1 hc2
        have hce : elimCount p d a v e.1 = some e.2 := hm2 e (hperm.mem_iff.mp he)
        have hce2 : elimCount p d a v e2.1 = some e2.2 := hm2 e2 (hperm.mem_iff.mp he2)
        rw [hce] at hc1
        rw [hce2] at hc2
        cases Option.some.inj hc1
        cases Option.some.inj hc2
        exact hle

/-! Glue lemmas for the claim statements. -/

theorem pipeline_dsl {p : Puzzle} {d2 : Doms} {b : Bool}
    (h : ac3 p (enforce_node_consistency (initDoms p)) = some (d2, b)) :
    ∀ v ∈ p.slots, ∀ w ∈ lookupW d2 v, w.length = v.len := by
  intro v _ w hw
  unfold ac3 at h
  have hsub := ac3Aux_sublist h v
  exact mem_enforce_length (hsub.subset hw)

theorem consistent_nil {p : Puzzle} : consistent p [] = some true := by
  apply consistent_eq_some_true.mpr
  intro v _ w hw
  exact absurd hw (by simp [lookupA])

/-! The claims. -/

/-- Claim C1, code behavior at the failing input: on `pUnsat` the `ac3` run
performed by `solve` reports failure (an emptied domain), and `solve` still
returns the no-solution signal `None` — but only after calling `backtrack`
unconditionally (see the definition of `solve`: the boolean result of `ac3`
is discarded and `backtrack` is always invoked on the pruned domains). -/
theorem c1_solve_unsat :
    (ac3 pUnsat (enforce_node_consistency (initDoms pUnsat))).map
      (fun r => r.2) = some false ∧
    solve pUnsat = some none := by
  exact ⟨by decide, by decide⟩

/-- Claim C2, counterexample: the search the code performs and the
MRV/degree-plus-LCV search described by the claim (`backtrackSpec`, built
from `select_unassigned_variable` and `order_domain_values`) return
different mappings on `pTwo`: the code assigns CAT to the across slot, the
claimed strategy assigns TOG. -/
theorem c2_counterexample :
    (backtrack pTwo dTwo 3 []).map resultOf =
      some (some [(sA, wCAT), (sD, wGAT)]) ∧
    backtrackSpec pTwo dTwo 3 [] = some (some [(sD, wGOT), (sA, wTOG)]) ∧
    (backtrack pTwo dTwo 3 []).map resultOf ≠ backtrackSpec pTwo dTwo 3 [] ∧
    lookupA [(sA, wCAT), (sD, wGAT)] sA ≠ lookupA [(sD, wGOT), (sA, wTOG)] sA := by
  exact ⟨by decide, by decide, by decide, by decide⟩

/-- Claim C2, amended: `backtrack` fills the first unassigned slot in the
puzzle's iteration order and tries that slot's words in the domain's stored
order — it coincides with the spec-shaped search `backtrackFirstOrder`
built from those choices, not with the MRV/LCV one. -/
theorem c2_amended (p : Puzzle) (d : Doms) (fuel : Nat) (a : Assignment)
    (hnd : p.slots.Nodup)
    (hdne : ∀ v ∈ p.slots, ∀ w ∈ lookupW d v, w ≠ [])
    (hk : NodupKeys a) (hsub : ∀ e ∈ a, e.1 ∈ p.slots)
    (hne : ∀ e ∈ a, e.2 ≠ []) :
    (backtrack p d fuel a).map resultOf = backtrackFirstOrder p d fuel a :=
  backtrack_eq_firstOrder hnd hdne hk hsub hne

/-- Witness for the amended claim C2 at a concrete puzzle. -/
theorem c2_amended_witness :
    pTwo.slots.Nodup ∧
    (backtrack pTwo dTwo 3 []).map resultOf = backtrackFirstOrder pTwo dTwo 3 [] :=
  ⟨by decide, c2_amended pTwo dTwo 3 [] (by decide) (by decide)
    List.nodup_nil (by decide) (by decide)⟩

/-- Claim C3, code behavior at the failing input: for the two slots of
`pDisjoint`, whose overlap entry is `None`, `revise` raises (the code
evaluates `overlap[0]` before testing `if overlap:`), modelled as `none` —
it does not return `False`. -/
theorem c3_revise_crash :
    pDisjoint.overlaps sLone sFar = none ∧
    revise pDisjoint [(sLone, [wCAT]), (sFar, [wCAT])] sLone sFar = none := by
  exact ⟨by decide, by decide⟩

/-- Claim C4, counterexample: started from the assignment mapping the lone
slot (of length 3) to the two-letter word AB, `backtrack` immediately
returns that assignment as a success, yet it is not `consistent`. -/
theorem c4_counterexample :
    backtrack pOne [(sLone, [wCAT])] 1 [(sLone, ['A', 'B'])] =
      some ([(sLone, ['A', 'B'])], true) ∧
    consistent pOne [(sLone, ['A', 'B'])] = some false := by
  exact ⟨by decide, by decide⟩

/-- Claim C4, amended: for every puzzle with distinct slots and domains of
non-empty words, and every starting assignment whose keys are distinct
puzzle slots mapped to non-empty words and which is `consistent`, any
assignment returned by `backtrack` satisfies `assignment_complete` and
`consistent`. -/
theorem c4_amended (p : Puzzle) (d : Doms) (fuel : Nat) (a r : Assignment)
    (hnd : p.slots.Nodup)
    (hdne : ∀ v ∈ p.slots, ∀ w ∈ lookupW d v, w ≠ [])
    (hk : NodupKeys a) (hsub : ∀ e ∈ a, e.1 ∈ p.slots)
    (hne : ∀ e ∈ a, e.2 ≠ []) (hcons : consistent p a = some true)
    (h : backtrack p d fuel a = some (r, true)) :
    assignment_complete p r = true ∧ consistent p r = some true :=
  backtrack_sound hnd hdne hk hsub hne hcons h

/-- Witness for the amended claim C4 at a concrete puzzle. -/
theorem c4_amended_witness :
    backtrack pCross [(sA, [wCAT]), (sD, [wTAG])] 3 [] =
      some ([(sA, wCAT), (sD, wTAG)], true) ∧
    assignment_complete pCross [(sA, wCAT), (sD, wTAG)] = true ∧
    consistent pCross [(sA, wCAT), (sD, wTAG)] = some true :=
  ⟨by decide, c4_amended pCross [(sA, [wCAT]), (sD, [wTAG])] 3 []
    [(sA, wCAT), (sD, wTAG)] (by decide) (by decide) List.nodup_nil
    (by decide) (by decide) consistent_nil (by decide)⟩

/-- Claim C5: whenever the domains pruned by node consistency and `ac3`
admit a total choice of words that is a complete, consistent assignment,
`backtrack` started from the empty assignment (as `solve` starts it)
returns some complete, consistent assignment rather than the failure
signal.  The puzzle is assumed well-formed: distinct slots and in-range
overlap offsets. -/
theorem c5_backtrack_complete (p : Puzzle) (d2 : Doms) (b : Bool)
    (hnd : p.slots.Nodup) (hb : boundsOK p = true)
    (hac : ac3 p (enforce_node_consistency (initDoms p)) = some (d2, b))
    (s : Slot → Word)
    (hsmem : ∀ v ∈ p.slots, s v ∈ lookupW d2 v)
    (hcomp : assignment_complete p (mkAssign p s) = true)
    (hcons : consistent p (mkAssign p s) = some true) :
    ∃ r, backtrack p d2 (p.slots.length + 1) [] = some (r, true) ∧
      assignment_complete p r = true ∧ consistent p r = some true := by
  have hdsl := pipeline_dsl hac
  have hsol := consistent_eq_some_true.mp hcons
  have hsne : ∀ v ∈ p.slots, s v ≠ [] := by
    intro v hv
    obtain ⟨w, hw, hwne⟩ := complete_lookup hcomp hv
    rw [lookupA_mkAssign hv] at hw
    have := Option.some.inj hw
    rw [this]
    exact hwne
  have hk0 : NodupKeys ([] : Assignment) := List.nodup_nil
  have hsub0 : ∀ e ∈ ([] : Assignment), e.1 ∈ p.slots := by
    intro e he
    exact absurd he (by simp)
  have hagr0 : ∀ e ∈ ([] : Assignment), e.2 = s e.1 := by
    intro e he
    exact absurd he (by simp)
  have hne0 : ∀ e ∈ ([] : Assignment), e.2 ≠ [] := by
    intro e he
    exact absurd he (by simp)
  have hfuel0 : p.slots.length < (p.slots.length + 1) + ([] : Assignment).length := by
    simp
  obtain ⟨r, hr⟩ := backtrack_complete hnd hb hdsl s hsmem hsne hsol
    hk0 hsub0 hagr0 hfuel0
  have hdne : ∀ v ∈ p.slots, ∀ w ∈ lookupW d2 v, w ≠ [] := by
    intro v hv w hw
    have hl1 : w.length = v.len := hdsl v hv w hw
    have hl2 : (s v).length = v.len := hdsl v hv (s v) (hsmem v hv)
    have hsvne := hsne v hv
    intro hc
    subst hc
    simp only [List.length_nil] at hl1
    have : (s v).length = 0 := by omega
    exact hsvne (List.length_eq_zero.mp this)
  exact ⟨r, hr, backtrack_sound hnd hdne hk0 hsub0 hne0 consistent_nil hr⟩

/-- Witness for claim C5 at the spec's example puzzle: CAT across, TAG down,
crossing on the shared letter A. -/
theorem c5_witness :
    ac3 pCross (enforce_node_consistency (initDoms pCross)) =
      some (dCrossPruned, true) ∧
    (∃ r, backtrack pCross dCrossPruned (pCross.slots.length + 1) [] =
        some (r, true) ∧
      assignment_complete pCross r = true ∧ consistent pCross r = some true) :=
  ⟨by decide, c5_backtrack_complete pCross dCrossPruned true (by decide)
    (by decide) (by decide) (fun v => if v = sA then wCAT else wTAG)
    (by decide) (by decide) (by decide)⟩

/-- Claim C6: when `ac3` (seeded with every ordered pair of neighboring
slots) returns success, the resulting domains are arc consistent: every word
left in a slot's domain has a partner in each neighbor's domain agreeing at
the overlap offsets.  The overlap table is assumed symmetric, as the spec
guarantees. -/
theorem c6_ac3_fixpoint (p : Puzzle) (d d2 : Doms) (x y : Slot) (i j : Nat)
    (w : Word) (hs : symmOK p = true) (h : ac3 p d = some (d2, true))
    (hx : x ∈ p.slots) (hy : y ∈ neighbors p x)
    (hov : p.overlaps x y = some (i, j)) (hw : w ∈ lookupW d2 x) :
    ∃ w2 ∈ lookupW d2 y, ∃ c, w.get? i = some c ∧ w2.get? j = some c :=
  ac3_arcCons hs h x hx y hy i j hov w hw

/-- Witness for claim C6 at the spec's example puzzle. -/
theorem c6_witness :
    ac3 pCross (enforce_node_consistency (initDoms pCross)) =
      some (dCrossPruned, true) ∧
    (∃ w2 ∈ lookupW dCrossPruned sD, ∃ c, wCAT.get? 1 = some c ∧
      w2.get? 1 = some c) :=
  ⟨by decide, c6_ac3_fixpoint pCross (enforce_node_consistency (initDoms pCross))
    dCrossPruned sA sD 1 1 wCAT (by decide) (by decide) (by decide) (by decide)
    (by decide) (by decide)⟩

/-- Claim C7: domains only shrink across the consistency phase — for every
slot, the domain after `ac3` is a subset of the domain after
`enforce_node_consistency`, itself a subset of the initial vocabulary, and
the sizes are ordered accordingly. -/
theorem c7_monotone (p : Puzzle) (d2 : Doms) (b : Bool) (v : Slot)
    (h : ac3 p (enforce_node_consistency (initDoms p)) = some (d2, b)) :
    lookupW d2 v ⊆ lookupW (enforce_node_consistency (initDoms p)) v ∧
    lookupW (enforce_node_consistency (initDoms p)) v ⊆ p.words ∧
    (lookupW d2 v).length ≤
      (lookupW (enforce_node_consistency (initDoms p)) v).length ∧
    (lookupW (enforce_node_consistency (initDoms p)) v).length ≤
      p.words.length := by
  have h1 : (lookupW d2 v).Sublist
      (lookupW (enforce_node_consistency (initDoms p)) v) := by
    unfold ac3 at h
    exact ac3Aux_sublist h v
  have h2 : (lookupW (enforce_node_consistency (initDoms p)) v).Sublist
      p.words := by
    rw [lookupW_enforce]
    exact (List.filter_sublist _).trans lookupW_initDoms_sublist
  exact ⟨h1.subset, h2.subset, h1.length_le, h2.length_le⟩

/-- Witness for claim C7 at the spec's example puzzle. -/
theorem c7_witness :
    ac3 pCross (enforce_node_consistency (initDoms pCross)) =
      some (dCrossPruned, true) ∧
    (lookupW dCrossPruned sA ⊆
      lookupW (enforce_node_consistency (initDoms pCross)) sA ∧
    lookupW (enforce_node_consistency (initDoms pCross)) sA ⊆ pCross.words ∧
    (lookupW dCrossPruned sA).length ≤
      (lookupW (enforce_node_consistency (initDoms pCross)) sA).length ∧
    (lookupW (enforce_node_consistency (initDoms pCross)) sA).length ≤
      pCross.words.length) :=
  ⟨by decide, c7_monotone pCross dCrossPruned true sA (by decide)⟩

/-- Claim C8, counterexample: the assignment mapping the lone length-3 slot
to the empty word is accepted by `consistent` (empty values are skipped by
the `if value:` test), but the claim's characterization `consistentClaim`
rejects it, since the empty word's length differs from the slot's. -/
theorem c8_counterexample :
    consistent pOne [(sLone, [])] = some true ∧
    consistentClaim pOne [(sLone, [])] = false := by
  exact ⟨by decide, by decide⟩

/-- Claim C8, amended: `consistent` returns True exactly when every puzzle
slot assigned a non-empty word has the slot's length, and every neighboring
pair of slots both assigned non-empty words carries distinct words agreeing
(in range) at the overlap offsets: slots assigned the empty word are
exempt from every check. -/
theorem c8_amended (p : Puzzle) (a : Assignment) :
    consistent p a = some true ↔ consistentHolds p a :=
  consistent_eq_some_true

/-- Claim C9: the list returned by `order_domain_values` is a permutation of
the slot's domain, sorted ascending by the elimination count the code
computes over unassigned neighbors. -/
theorem c9_lcv_sorted (p : Puzzle) (d : Doms) (v : Slot) (a : Assignment)
    (l : List Word) (h : order_domain_values p d v a = some l) :
    l.Perm (lookupW d v) ∧
    l.Pairwise (fun w1 w2 => ∀ c1 c2, elimCount p d a v w1 = some c1 →
      elimCount p d a v w2 = some c2 → c1 ≤ c2) :=
  order_domain_values_spec h

/-- Witness for claim C9: on `pTwo` the down slot's domain is reordered to
GOT before GAT (elimination counts 1 and 2). -/
theorem c9_witness :
    order_domain_values pTwo dTwo sD [] = some [wGOT, wGAT] ∧
    ([wGOT, wGAT] : List Word).Perm (lookupW dTwo sD) ∧
    ([wGOT, wGAT] : List Word).Pairwise
      (fun w1 w2 => ∀ c1 c2, elimCount pTwo dTwo [] sD w1 = some c1 →
        elimCount pTwo dTwo [] sD w2 = some c2 → c1 ≤ c2) :=
  ⟨by decide, (c9_lcv_sorted pTwo dTwo sD [] [wGOT, wGAT] (by decide)).1,
    (c9_lcv_sorted pTwo dTwo sD [] [wGOT, wGAT] (by decide)).2⟩

/-- Claim C10: whenever `backtrack` returns the failure signal, the
assignment dict equals its value at entry — every tentatively added entry
has been popped again. -/
theorem c10_backtrack_restores (p : Puzzle) (d : Doms) (fuel : Nat)
    (a r : Assignment) (h : backtrack p d fuel a = some (r, false)) : r = a :=
  (backtrack_shape h).1 rfl

/-- Witness for claim C10: a failing search from a non-empty assignment
hands back exactly that assignment. -/
theorem c10_backtrack_restores_witness :
    backtrack pCross dClash 2 [(sA, wCAT)] = some ([(sA, wCAT)], false) ∧
    ([(sA, wCAT)] : Assignment) = [(sA, wCAT)] :=
  ⟨by decide, c10_backtrack_restores pCross dClash 2 [(sA, wCAT)] [(sA, wCAT)]
    (by decide)⟩

end Crossword

